import Mathlib

/-!
# Verification of the tinycondor record-merge and durable-append engine

Shallow embedding of the enhanced engine source (`create`, `load`/`load_`,
`save`, `updatedRecs`, `notEq`, `validateTimestamp`, `fileEndsWithNewline`,
the process-wide `CACHE`, and the lock wrapper `withLock`).  JavaScript
records become a structure holding the mandatory `id` and `tm` fields plus an
insertion-ordered association list of extra fields; JS `Map`s become
association lists with insert-keeps-position update semantics; the wall clock
`Date.now()` is an explicit `now : Int` in the world state; the file system is
an explicit path-keyed store; fallible IO outcomes (write failure, lock
failure) are explicit oracle parameters.
-/

namespace TinyCondor

/-- A JavaScript number as the engine observes it: a finite value (timestamps
are integral milliseconds) or `NaN`.  `NaN` matters because `record.tm` is
tested for *truthiness* (`0` and `NaN` are falsy) and because the equality
library treats two `NaN`s as equal. -/
inductive JsNum where
  | fin (v : Int)
  | nan
deriving DecidableEq, Repr

/-- A JSON-like JavaScript value: the open-ended field values of a record. -/
inductive JVal where
  | str (s : String)
  | num (n : JsNum)
  | bool (b : Bool)
  | null
  | obj (fields : List (String × JVal))
  | arr (elems : List JVal)

/-- A condor record: mandatory `id` (string), `tm` (number, `none` models the
field being absent on a caller-supplied object), and the remaining fields in
insertion order.  Invariant maintained by well-formedness below: `fields`
carries neither `"id"` nor `"tm"` and has no duplicate keys. -/
structure CondorRec where
  id : String
  tm : Option JsNum
  fields : List (String × JVal)

/-- Field lookup in a JS object literal (first match, as JS objects have
unique keys). -/
def lookupField : List (String × JVal) → String → Option JVal
  | [], _ => none
  | (k, v) :: rest, key => if k = key then some v else lookupField rest key

/-- Scalar (`===`-style) equality on numbers as `fast-deep-equal` computes it:
its final clause `a !== a && b !== b` makes two `NaN`s equal. -/
def jsNumEq : JsNum → JsNum → Bool
  | .fin a, .fin b => a == b
  | .nan, .nan => true
  | _, _ => false

mutual

/-- Model of the `fast-deep-equal` library `equal(a, b)`: constructor
mismatch is inequality, arrays compare by length and pointwise, objects
compare by key count, key membership and recursive value equality. -/
def jvalEq : JVal → JVal → Bool
  | .str a, .str b => a == b
  | .num a, .num b => jsNumEq a b
  | .bool a, .bool b => a == b
  | .null, .null => true
  | .obj a, .obj b => a.length == b.length && objFieldsEq a b
  | .arr a, .arr b => a.length == b.length && arrElemsEq a b
  | _, _ => false

/-- The object branch of `fast-deep-equal`: every key of `a` must be present
in `b` with a deep-equal value (the key-count check is done by the caller). -/
def objFieldsEq : List (String × JVal) → List (String × JVal) → Bool
  | [], _ => true
  | (k, v) :: rest, b =>
    (match lookupField b k with
     | some w => jvalEq v w
     | none => false) && objFieldsEq rest b

/-- The array branch of `fast-deep-equal`: pointwise comparison. -/
def arrElemsEq : List JVal → List JVal → Bool
  | [], _ => true
  | x :: xs, b =>
    (match b with
     | [] => false
     | y :: ys => jvalEq x y && arrElemsEq xs ys)

end

example : jvalEq (.obj [("a", .num (.fin 3))]) (.obj [("a", .num (.fin 3))]) = true := by
  simp [jvalEq, objFieldsEq, lookupField, jsNumEq]

example : jvalEq (.num .nan) (.num .nan) = true := by
  simp [jvalEq, jsNumEq]

/-- Structured error event reported through the caller-supplied handler
(`CondorErr`: human-readable message plus optional machine code; the optional
offending record / underlying cause are not needed by any claim). -/
structure CondorErrM where
  message : String
  code : Option String := none
deriving DecidableEq, Repr

/-- JS truthiness of the `tm` field value: an absent field (`undefined`),
the number `0` and `NaN` are falsy; every other number is truthy. -/
def truthyTm : Option JsNum → Bool
  | some (.fin v) => v != 0
  | some .nan => false
  | none => false

/-- `const recWithTm = record.tm ? record : { ...record, tm: Date.now() }`:
the candidate actually merged; a derived copy when `tm` is falsy. -/
def recWithTm (now : Int) (record : CondorRec) : CondorRec :=
  if truthyTm record.tm then record else { record with tm := some (.fin now) }

def yearInMs : Int := 365 * 24 * 60 * 60 * 1000

/-- `new Date("2020-01-01").getTime()` in epoch milliseconds. -/
def year2020ms : Int := 1577836800000

/-- Model of `validateTimestamp` as the list of warnings it reports:
timestamps under 1000000 are treated as test values and skipped; otherwise
more than one year in the future, or before 2020, draws an
`INVALID_TIMESTAMP` report.  `NaN` satisfies none of the comparisons, so it
draws no report. -/
def validateTimestampErrs (now : Int) (tm : Option JsNum) (recId : String) :
    List CondorErrM :=
  match tm with
  | some (.fin t) =>
    if t < 1000000 then []
    else if t > now + yearInMs then
      [{ message := "Timestamp is too far in future for record: " ++ recId,
         code := some "INVALID_TIMESTAMP" }]
    else if t < year2020ms then
      [{ message := "Timestamp is before 2020 for record: " ++ recId,
         code := some "INVALID_TIMESTAMP" }]
    else []
  | _ => []

/-- The top-level JS object a record denotes, minus the `tm` key: what
`notEq` builds with spread-and-delete before calling `fast-deep-equal`. -/
def recObjNoTm (r : CondorRec) : List (String × JVal) :=
  ("id", .str r.id) :: r.fields

/-- Model of `notEq(c, r)`: shallow copies of both records without the `tm`
field, compared with `fast-deep-equal`, negated.  The same-reference fast
path (`c === r` returns `false` immediately) is covered extensionally:
`jvalEq` is reflexive in this model (even on `NaN`, which the library's
both-`NaN` clause equates), see `notEq_self_eq_false`. -/
def notEq (c r : CondorRec) : Bool :=
  !(jvalEq (.obj (recObjNoTm c)) (.obj (recObjNoTm r)))

/-- JS `<` on the two `tm` values (any comparison involving `NaN` or
`undefined` is false). -/
def jsTmLt : Option JsNum → Option JsNum → Bool
  | some (.fin a), some (.fin b) => a < b
  | _, _ => false

/-- JS `===` on the two `tm` values (`NaN === NaN` is false,
`undefined === undefined` is true). -/
def jsTmEq : Option JsNum → Option JsNum → Bool
  | some (.fin a), some (.fin b) => a == b
  | none, none => true
  | _, _ => false

/-- The merge condition `!current || current.tm < rec.tm ||
(current.tm === rec.tm && notEq(current, rec))`, shared verbatim by
`updatedRecs` and the `load_` line handler. -/
def supersedes (current : Option CondorRec) (r : CondorRec) : Bool :=
  match current with
  | none => true
  | some c => jsTmLt c.tm r.tm || (jsTmEq c.tm r.tm && notEq c r)

/-- Quoting of a JSON string (escaping of interior quotes is not modelled;
no claim depends on it). -/
def quoteJson (s : String) : String := "\"" ++ s ++ "\""

mutual

/-- Model of `JSON.stringify` on the engine's values (`NaN` serializes to
`null`; these values are acyclic, so stringify never throws on them). -/
def jvalToStr : JVal → String
  | .str s => quoteJson s
  | .num (.fin v) => toString v
  | .num .nan => "null"
  | .bool b => if b then "true" else "false"
  | .null => "null"
  | .obj fs => "\x7b" ++ fieldsToStr fs ++ "\x7d"
  | .arr xs => "[" ++ elemsToStr xs ++ "]"

def fieldsToStr : List (String × JVal) → String
  | [] => ""
  | [(k, v)] => quoteJson k ++ ":" ++ jvalToStr v
  | (k, v) :: rest => quoteJson k ++ ":" ++ jvalToStr v ++ "," ++ fieldsToStr rest

def elemsToStr : List JVal → String
  | [] => ""
  | [x] => jvalToStr x
  | x :: rest => jvalToStr x ++ "," ++ elemsToStr rest

end

/-- The full JS object a record denotes, in field insertion order. -/
def recToObjFields (r : CondorRec) : List (String × JVal) :=
  ("id", .str r.id)
    :: ((match r.tm with | some t => [("tm", JVal.num t)] | none => []) ++ r.fields)

/-- One log line: `JSON.stringify(record)`. -/
def serializeRec (r : CondorRec) : String := jvalToStr (.obj (recToObjFields r))

/-- Lookup in a JS `Map` keyed by strings (association list model). -/
def alookup {α : Type} : List (String × α) → String → Option α
  | [], _ => none
  | (k, v) :: rest, key => if k = key then some v else alookup rest key

/-- `Map.set`: replacing an existing key keeps its position, a new key is
appended — exactly the JS `Map` insertion-order semantics that `unwrap`
(`Array.from(map.values())`) later exposes. -/
def aset {α : Type} : List (String × α) → String → α → List (String × α)
  | [], key, v => [(key, v)]
  | (k, w) :: rest, key, v =>
    if k = key then (k, v) :: rest else (k, w) :: aset rest key v

/-- The in-progress State Mapping: record id to winning record. -/
abbrev StateMapping : Type := List (String × CondorRec)

/-- Result of `updatedRecs`: the mutated state map, the accepted records,
their serialized lines, the reported errors, and the caller's batch as it
stands after the call (mutation tracking for the frame claim). -/
structure UpdatedRecs where
  state : StateMapping
  recs : List CondorRec
  strs : List String
  errs : List CondorErrM
  inputsAfter : List CondorRec

/-- One iteration of the `recs.forEach` body of `updatedRecs`: reject a
record with a falsy `id`, default a falsy `tm` onto a derived copy, warn on
implausible timestamps, then apply the supersession rule, updating the state
map in place on acceptance.  `JSON.stringify` cannot throw on these acyclic
values, so the catch branch is unreachable in the model.  The enhanced
engine never writes to the caller's record, so `inputsAfter` collects each
input unchanged. -/
def procRecord (now : Int) (acc : UpdatedRecs) (record : CondorRec) : UpdatedRecs :=
  if record.id = "" then
    { acc with
      errs := acc.errs ++ [{ message := "record missing id" }],
      inputsAfter := acc.inputsAfter ++ [record] }
  else
    let r := recWithTm now record
    let errs1 := acc.errs ++ validateTimestampErrs now r.tm r.id
    if supersedes (alookup acc.state r.id) r then
      { state := aset acc.state r.id r,
        recs := acc.recs ++ [r],
        strs := acc.strs ++ [serializeRec r],
        errs := errs1,
        inputsAfter := acc.inputsAfter ++ [record] }
    else
      { acc with errs := errs1, inputsAfter := acc.inputsAfter ++ [record] }

/-- Model of `updatedRecs(cached, recs, onErrors)`.  The JS function mutates
`cached` in place; here the mutated map is returned as `.state`. -/
def updatedRecs (now : Int) (cached : StateMapping) (recs : List CondorRec) :
    UpdatedRecs :=
  recs.foldl (procRecord now) ⟨cached, [], [], [], []⟩

/-- One line of the on-disk newline-delimited log: either a line holding one
serialized record, or a line (of the given raw text) that `JSON.parse` or
the `CondorRecSchema` rejects. -/
inductive LogLine where
  | recLine (r : CondorRec)
  | badLine (raw : String)

/-- `CondorRecSchema.parse(JSON.parse(line))`: succeeds exactly when the
line is valid JSON whose object carries a string `id` and a number `tm`
(zod's `z.number()` rejects `NaN`, and JSON itself cannot carry `NaN` or an
`undefined` field value, so a parsed record always has `tm = some (.fin t)`). -/
def parseLine : LogLine → Option CondorRec
  | .recLine r =>
    match r.tm with
    | some (.fin _) => some r
    | _ => none
  | .badLine _ => none

/-- A file on disk: its lines, its size in bytes as `stat` reports it, and
whether its last byte is a newline (what `fileEndsWithNewline` reads). -/
structure FileData where
  lines : List LogLine
  size : Nat
  endsNL : Bool

/-- The world the engine operates in: the process-wide `CACHE` (path to
state mapping), the file system (path to file), and the wall clock
`Date.now()` in epoch milliseconds. -/
structure World where
  cache : List (String × StateMapping)
  files : List (String × FileData)
  now : Int

/-- `clearCache()`. -/
def clearCacheW (w : World) : World := { w with cache := [] }

/-- One iteration of the `rl.on("line", ...)` handler of `load_`: count the
line, skip it with a report if it fails parse/schema, otherwise warn on
implausible timestamps and apply the supersession rule to the in-progress
mapping. -/
def procLine (now : Int) (acc : StateMapping × List CondorErrM × Nat)
    (line : LogLine) : StateMapping × List CondorErrM × Nat :=
  let n := acc.2.2 + 1
  match parseLine line with
  | none =>
    (acc.1,
     acc.2.1 ++ [{ message := "failed to get record from line: " ++ toString n }],
     n)
  | some r =>
    let errs := acc.2.1 ++ validateTimestampErrs now r.tm r.id
    if supersedes (alookup acc.1 r.id) r then (aset acc.1 r.id r, errs, n)
    else (acc.1, errs, n)

def defaultMaxFileSizeBytes : Nat := 100 * 1024 * 1024

/-- Model of `load_(dbfile, onErrors, maxFileSizeBytes)`: cached mapping if
present (bypassing the disk entirely); otherwise `stat` the file (absent
file fails with an IO report), fail with `FILE_TOO_LARGE` before reading any
content when the on-disk size exceeds the ceiling, else stream the lines
through `procLine`, install the resulting mapping in the cache and return
it. -/
def load_ (w : World) (dbfile : String) (maxFileSizeBytes : Nat) :
    Option StateMapping × World × List CondorErrM :=
  match alookup w.cache dbfile with
  | some loaded => (some loaded, w, [])
  | none =>
    match alookup w.files dbfile with
    | none =>
      (none, w, [{ message := "load/stat failed for: " ++ dbfile, code := some "ENOENT" }])
    | some fd =>
      if fd.size > maxFileSizeBytes then
        (none, w,
         [{ message := "File is too large: " ++ dbfile, code := some "FILE_TOO_LARGE" }])
      else
        let folded := fd.lines.foldl (procLine w.now) ([], [], 0)
        (some folded.1, { w with cache := aset w.cache dbfile folded.1 }, folded.2.1)

/-- `Array.from(recs.values())`: the records of a state mapping in JS `Map`
insertion order. -/
def unwrap (recs : StateMapping) : List CondorRec :=
  recs.map (fun kv => kv.2)

/-- Model of the public `load`. -/
def load (w : World) (dbfile : String) (maxFileSizeBytes : Nat) :
    Option (List CondorRec) × World × List CondorErrM :=
  match load_ w dbfile maxFileSizeBytes with
  | (none, w1, errs) => (none, w1, errs)
  | (some recs, w1, errs) => (some (unwrap recs), w1, errs)

/-- Outcome of the `proper-lockfile` acquisition inside `withLock`: acquired;
threw `ENOENT` (swallowed — proceed without the lock, nothing reported); or
threw any other error (rethrown by `withLock`, so the whole operation
rejects). -/
inductive LockOutcome where
  | ok
  | enoent
  | failed
deriving DecidableEq

/-- Model of `create(initialRecords, dbfile, onErrors)` minus the lock
wrapper.  The existence check runs first; then the cache entry for the path
is installed and mutated by `updatedRecs` (so it remains installed on every
later failure path); zero surviving records or a failed write (temp-file
write or atomic rename, collapsed into the `writeOk` oracle) fail with a
report and the sentinel. -/
def createBody (w : World) (initialRecords : List CondorRec) (dbfile : String)
    (writeOk : Bool) : Option (List CondorRec) × World × List CondorErrM :=
  match alookup w.files dbfile with
  | some _ =>
    (none, w,
     [{ message := dbfile ++ " already exists - cannot create!", code := some "EEXIST" }])
  | none =>
    let data := updatedRecs w.now [] initialRecords
    let w1 := { w with cache := aset w.cache dbfile data.state }
    if data.recs.length = 0 then
      (none, w1,
       data.errs ++
         [{ message := "failed to find any valid records to initialize file: " ++ dbfile }])
    else if writeOk then
      let content := String.intercalate "\n" data.strs ++ "\n"
      (some data.recs,
       { w1 with
         files := aset w1.files dbfile
           { lines := data.recs.map .recLine, size := content.length, endsNL := true } },
       data.errs)
    else
      (none, w1, data.errs ++ [{ message := "create failed writing: " ++ dbfile }])

/-- `create` with its `withLock` wrapper: a non-`ENOENT` lock failure is
rethrown before the body runs, so the promise rejects with nothing reported
(the `Except.error` payload lists the errors reported before the throw). -/
def create (lock : LockOutcome) (w : World) (initialRecords : List CondorRec)
    (dbfile : String) (writeOk : Bool) :
    Except (List CondorErrM) (Option (List CondorRec) × World × List CondorErrM) :=
  match lock with
  | .failed => .error []
  | _ => .ok (createBody w initialRecords dbfile writeOk)

/-- Model of `fileEndsWithNewline(path, onErrors)`: `true` with a report if
the open fails (absent file), `true` for an empty file, otherwise whether
the last byte is a newline. -/
def fileEndsWithNewlineW (w : World) (path : String) : Bool × List CondorErrM :=
  match alookup w.files path with
  | none => (true, [{ message := "Failed checking fileEndsWithNewline" }])
  | some fd => if fd.size = 0 then (true, []) else (fd.endsNL, [])

/-- Model of `save(recordArray, dbfile, onErrors, maxFileSizeBytes)` minus
the lock wrapper: load the current mapping (cache-aware; failure is fatal),
run the merge engine against it — mutating the cached map in place, modelled
by re-installing `data.state` —, return the full set with a "nothing new"
report when no record survived, otherwise warn past the 50 MiB soft
threshold, fix up a missing trailing newline, and append (the append
creates the file when it is absent; a write/fsync failure, collapsed into
the `writeOk` oracle, reports and returns the sentinel while the cache keeps
the already-merged mapping). -/
def saveBody (w : World) (recordArray : List CondorRec) (dbfile : String)
    (writeOk : Bool) (maxFileSizeBytes : Nat) :
    Option (List CondorRec) × World × List CondorErrM :=
  match load_ w dbfile maxFileSizeBytes with
  | (none, w1, errs1) =>
    (none, w1, errs1 ++ [{ message := "failed to get existing records from: " ++ dbfile }])
  | (some current, w1, errs1) =>
    let data := updatedRecs w1.now current recordArray
    let w2 := { w1 with cache := aset w1.cache dbfile data.state }
    if data.recs.length = 0 then
      (some (unwrap data.state), w2,
       errs1 ++ data.errs ++ [{ message := "nothing new to save in: " ++ dbfile }])
    else
      let sizeWarn : List CondorErrM :=
        match alookup w2.files dbfile with
        | some fd =>
          if fd.size > 50 * 1024 * 1024 then
            [{ message := "File is large. Consider running compaction.",
               code := some "FILE_SIZE_WARNING" }]
          else []
        | none => [{ message := "save/stat failed for: " ++ dbfile }]
      if writeOk then
        let nl := fileEndsWithNewlineW w2 dbfile
        let toAppend :=
          (if nl.1 then "" else "\n") ++ String.intercalate "\n" data.strs ++ "\n"
        let oldFile :=
          match alookup w2.files dbfile with
          | some fd => fd
          | none => { lines := [], size := 0, endsNL := true }
        (some (unwrap data.state),
         { w2 with
           files := aset w2.files dbfile
             { lines := oldFile.lines ++ data.recs.map .recLine,
               size := oldFile.size + toAppend.length, endsNL := true } },
         errs1 ++ data.errs ++ sizeWarn ++ nl.2)
      else
        (none, w2,
         errs1 ++ data.errs ++ sizeWarn ++ [{ message := "save/write failed for: " ++ dbfile }])

/-- `save` with its `withLock` wrapper (same rethrow behavior as `create`). -/
def save (lock : LockOutcome) (w : World) (recordArray : List CondorRec)
    (dbfile : String) (writeOk : Bool) (maxFileSizeBytes : Nat) :
    Except (List CondorErrM) (Option (List CondorRec) × World × List CondorErrM) :=
  match lock with
  | .failed => .error []
  | _ => .ok (saveBody w recordArray dbfile writeOk maxFileSizeBytes)

mutual

/-- Well-formedness of a value as a JS engine guarantees it: every object
literal has pairwise-distinct keys. -/
def jvalWf : JVal → Bool
  | .str _ => true
  | .num _ => true
  | .bool _ => true
  | .null => true
  | .obj fs => decide ((fs.map Prod.fst).Nodup) && fieldsWf fs
  | .arr xs => elemsWf xs

def fieldsWf : List (String × JVal) → Bool
  | [] => true
  | (_, v) :: rest => jvalWf v && fieldsWf rest

def elemsWf : List JVal → Bool
  | [] => true
  | x :: xs => jvalWf x && elemsWf xs

end

/-- Well-formedness of a record as a JS object: the extra fields have
pairwise-distinct keys, none of them reuses the reserved `id`/`tm` keys, and
every value is well-formed. -/
def recWf (r : CondorRec) : Bool :=
  decide ((r.fields.map Prod.fst).Nodup) &&
  decide ("id" ∉ r.fields.map Prod.fst) &&
  decide ("tm" ∉ r.fields.map Prod.fst) &&
  fieldsWf r.fields

theorem alookup_aset_self {α : Type} (m : List (String × α)) (k : String) (v : α) :
    alookup (aset m k v) k = some v := by
  induction m with
  | nil => simp [aset, alookup]
  | cons kv rest ih =>
    obtain ⟨k', w⟩ := kv
    by_cases h : k' = k
    · simp [aset, alookup, h]
    · simp [aset, alookup, h, ih]

theorem alookup_aset_ne {α : Type} (m : List (String × α)) (k key : String) (v : α)
    (h : k ≠ key) : alookup (aset m k v) key = alookup m key := by
  induction m with
  | nil => simp [aset, alookup, h]
  | cons kv rest ih =>
    obtain ⟨k', w⟩ := kv
    by_cases h1 : k' = k
    · subst h1
      simp [aset, alookup, h]
    · simp [aset, alookup, h1, ih]

theorem lookupField_eq_some_of_mem (fs : List (String × JVal)) (k : String) (v : JVal)
    (hnd : (fs.map Prod.fst).Nodup) (hm : (k, v) ∈ fs) : lookupField fs k = some v := by
  induction fs with
  | nil => cases hm
  | cons kv rest ih =>
    obtain ⟨k', w⟩ := kv
    simp only [List.map_cons, List.nodup_cons] at hnd
    rcases List.mem_cons.mp hm with h | h
    · cases h
      simp [lookupField]
    · have hk : k' ≠ k := by
        intro he
        subst he
        exact hnd.1 (List.mem_map.mpr ⟨(k', v), h, rfl⟩)
      simp [lookupField, hk, ih hnd.2 h]

theorem mem_of_lookupField_eq_some (fs : List (String × JVal)) (k : String) (v : JVal)
    (h : lookupField fs k = some v) : (k, v) ∈ fs := by
  induction fs with
  | nil => simp [lookupField] at h
  | cons kv rest ih =>
    obtain ⟨k', w⟩ := kv
    by_cases hk : k' = k
    · subst hk
      simp [lookupField] at h
      simp [h]
    · simp [lookupField, hk] at h
      exact List.mem_cons_of_mem _ (ih h)

theorem lookupField_isSome_iff (fs : List (String × JVal)) (k : String) :
    (∃ v, lookupField fs k = some v) ↔ k ∈ fs.map Prod.fst := by
  constructor
  · rintro ⟨v, hv⟩
    exact List.mem_map.mpr ⟨(k, v), mem_of_lookupField_eq_some fs k v hv, rfl⟩
  · intro hk
    induction fs with
    | nil => simp at hk
    | cons kv rest ih =>
      obtain ⟨k1, w1⟩ := kv
      by_cases h1 : k1 = k
      · exact ⟨w1, by simp [lookupField, h1]⟩
      · simp only [List.map_cons, List.mem_cons] at hk
        rcases hk with he | hk2
        · exact absurd he.symm h1
        · obtain ⟨v2, hv2⟩ := ih hk2
          exact ⟨v2, by simp [lookupField, h1, hv2]⟩

/-- If every binding of `a` finds a deep-equal value in `b`, the object
branch of the comparator succeeds. -/
theorem objFieldsEq_of_forall (a b : List (String × JVal))
    (h : ∀ kv ∈ a, ∃ w, lookupField b kv.1 = some w ∧ jvalEq kv.2 w = true) :
    objFieldsEq a b = true := by
  induction a with
  | nil => simp [objFieldsEq]
  | cons kv rest ih =>
    obtain ⟨k, v⟩ := kv
    obtain ⟨w, hw, he⟩ := h (k, v) (List.mem_cons_self _ _)
    simp only [objFieldsEq, Bool.and_eq_true]
    exact ⟨by simp [hw, he], ih fun kv hm => h kv (List.mem_cons_of_mem _ hm)⟩

/-- Conversely, a successful object comparison furnishes a deep-equal
partner for every binding of `a`. -/
theorem forall_of_objFieldsEq (a b : List (String × JVal))
    (h : objFieldsEq a b = true) :
    ∀ kv ∈ a, ∃ w, lookupField b kv.1 = some w ∧ jvalEq kv.2 w = true := by
  induction a with
  | nil =>
    intro kv hm
    cases hm
  | cons kv0 rest ih =>
    obtain ⟨k, v⟩ := kv0
    simp only [objFieldsEq, Bool.and_eq_true] at h
    intro kv hm
    rcases List.mem_cons.mp hm with he | hm2
    · subst he
      cases hlk : lookupField b k with
      | none =>
        have := h.1
        rw [hlk] at this
        simp at this
      | some w =>
        have h1 := h.1
        rw [hlk] at h1
        exact ⟨w, rfl, by simpa using h1⟩
    · exact ih h.2 kv hm2

mutual

/-- `fast-deep-equal` is reflexive on well-formed values (including `NaN`
field values, which its both-`NaN` clause equates): the semantic content of
the same-reference fast path of `notEq`. -/
theorem jvalEq_refl : ∀ (v : JVal), jvalWf v = true → jvalEq v v = true
  | .str _, _ => by simp [jvalEq]
  | .num n, _ => by cases n <;> simp [jvalEq, jsNumEq]
  | .bool _, _ => by simp [jvalEq]
  | .null, _ => by simp [jvalEq]
  | .obj fs, h => by
    have h1 : (fs.map Prod.fst).Nodup ∧ fieldsWf fs = true := by
      simpa [jvalWf] using h
    simp only [jvalEq, Bool.and_eq_true, beq_iff_eq]
    refine ⟨by simp, objFieldsEq_of_forall fs fs ?_⟩
    intro kv hm
    exact ⟨kv.2, lookupField_eq_some_of_mem fs kv.1 kv.2 h1.1 (by simpa using hm),
      fieldsWf_jvalEq_refl fs h1.2 kv hm⟩
  | .arr xs, h => by
    simp only [jvalEq, Bool.and_eq_true, beq_iff_eq]
    exact ⟨by simp, elemsWf_arrElemsEq_refl xs (by simpa [jvalWf] using h)⟩

theorem fieldsWf_jvalEq_refl :
    ∀ (l : List (String × JVal)), fieldsWf l = true →
      ∀ kv ∈ l, jvalEq kv.2 kv.2 = true
  | [], _ => by
    intro kv hm
    cases hm
  | kv0 :: rest, h => by
    obtain ⟨k0, v0⟩ := kv0
    have h12 : jvalWf v0 = true ∧ fieldsWf rest = true := by
      simpa [fieldsWf] using h
    intro kv hm
    rcases List.mem_cons.mp hm with he | hm2
    · subst he
      exact jvalEq_refl v0 h12.1
    · exact fieldsWf_jvalEq_refl rest h12.2 kv hm2

theorem elemsWf_arrElemsEq_refl :
    ∀ (xs : List JVal), elemsWf xs = true → arrElemsEq xs xs = true
  | [], _ => by simp [arrElemsEq]
  | x :: rest, h => by
    have h12 : jvalWf x = true ∧ elemsWf rest = true := by
      simpa [elemsWf] using h
    simp only [arrElemsEq, Bool.and_eq_true]
    exact ⟨jvalEq_refl x h12.1, elemsWf_arrElemsEq_refl rest h12.2⟩

end

/-- The object a record denotes minus `tm` is well-formed when the record
is. -/
theorem recObjNoTm_wf (r : CondorRec) (h : recWf r = true) :
    jvalWf (.obj (recObjNoTm r)) = true := by
  have h4 : (r.fields.map Prod.fst).Nodup ∧ ("id" ∉ r.fields.map Prod.fst) ∧
      ("tm" ∉ r.fields.map Prod.fst) ∧ fieldsWf r.fields = true := by
    simpa [recWf, and_assoc] using h
  simp only [jvalWf, recObjNoTm, Bool.and_eq_true, decide_eq_true_eq, List.map_cons,
    List.nodup_cons, fieldsWf]
  exact ⟨⟨h4.2.1, h4.1⟩, by simp [jvalWf], h4.2.2.2⟩

/-- The same-reference fast path, extensionally: on two structurally
identical well-formed records `notEq` returns `false`. -/
theorem notEq_self_eq_false (r : CondorRec) (h : recWf r = true) :
    notEq r r = false := by
  simp [notEq, jvalEq_refl _ (recObjNoTm_wf r h)]

theorem jsNumEq_iff (a b : JsNum) : jsNumEq a b = true ↔ a = b := by
  cases a <;> cases b <;> simp [jsNumEq]

theorem jvalWf_obj_iff {fs : List (String × JVal)} :
    jvalWf (.obj fs) = true ↔ (fs.map Prod.fst).Nodup ∧ fieldsWf fs = true := by
  simp [jvalWf]

theorem jvalWf_arr_iff {xs : List JVal} :
    jvalWf (.arr xs) = true ↔ elemsWf xs = true := by
  simp [jvalWf]

theorem fieldsWf_mem {l : List (String × JVal)} {k : String} {v : JVal}
    (h : fieldsWf l = true) (hm : (k, v) ∈ l) : jvalWf v = true := by
  induction l with
  | nil => cases hm
  | cons kv rest ih =>
    obtain ⟨k0, v0⟩ := kv
    simp only [fieldsWf, Bool.and_eq_true] at h
    rcases List.mem_cons.mp hm with he | hm2
    · cases he
      exact h.1
    · exact ih h.2 hm2

theorem elemsWf_mem {xs : List JVal} {x : JVal}
    (h : elemsWf xs = true) (hm : x ∈ xs) : jvalWf x = true := by
  induction xs with
  | nil => cases hm
  | cons y rest ih =>
    simp only [elemsWf, Bool.and_eq_true] at h
    rcases List.mem_cons.mp hm with he | hm2
    · cases he
      exact h.1
    · exact ih h.2 hm2

mutual

/-- The claim-side ("spec") notion of value equality, stated from the spec's
words rather than from the comparator's code: scalar values compare
directly, nested objects compare by equality of their key *sets* together
with recursive equality of the values at each common key, arrays compare
pointwise. -/
inductive SpecEq : JVal → JVal → Prop where
  | str (s : String) : SpecEq (.str s) (.str s)
  | num (n : JsNum) : SpecEq (.num n) (.num n)
  | bool (b : Bool) : SpecEq (.bool b) (.bool b)
  | null : SpecEq .null .null
  | obj (a b : List (String × JVal))
      (hkeys : ∀ k, k ∈ a.map Prod.fst ↔ k ∈ b.map Prod.fst)
      (hvals : ∀ k v w, (k, v) ∈ a → (k, w) ∈ b → SpecEq v w) :
      SpecEq (.obj a) (.obj b)
  | arr (xs ys : List JVal) (h : SpecEqList xs ys) : SpecEq (.arr xs) (.arr ys)

/-- Pointwise spec equality of two arrays. -/
inductive SpecEqList : List JVal → List JVal → Prop where
  | nil : SpecEqList [] []
  | cons {x y : JVal} {xs ys : List JVal} (hh : SpecEq x y) (ht : SpecEqList xs ys) :
      SpecEqList (x :: xs) (y :: ys)

end

theorem SpecEqList.length_eq : ∀ {xs ys : List JVal}, SpecEqList xs ys →
    xs.length = ys.length
  | _, _, .nil => rfl
  | _, _, .cons _ ht => by simp [SpecEqList.length_eq ht]

theorem sizeOf_lt_of_mem_fields {fs : List (String × JVal)} {k : String} {v : JVal}
    (h : (k, v) ∈ fs) : sizeOf v < sizeOf (JVal.obj fs) := by
  have h1 := List.sizeOf_lt_of_mem h
  simp only [Prod.mk.sizeOf_spec] at h1
  simp only [JVal.obj.sizeOf_spec]
  omega

theorem sizeOf_lt_of_mem_elems {xs : List JVal} {x : JVal}
    (h : x ∈ xs) : sizeOf x < sizeOf (JVal.arr xs) := by
  have h1 := List.sizeOf_lt_of_mem h
  simp only [JVal.arr.sizeOf_spec]
  omega

/-- Pointwise transfer: when every element pair already satisfies the
comparator/spec equivalence, the array branch of the comparator (plus the
length check) coincides with pointwise spec equality. -/
theorem arrElemsEq_iff_specEqList_of_pointwise :
    ∀ (xs ys : List JVal),
      (∀ x ∈ xs, ∀ y ∈ ys, (jvalEq x y = true ↔ SpecEq x y)) →
      ((xs.length = ys.length ∧ arrElemsEq xs ys = true) ↔ SpecEqList xs ys) := by
  intro xs
  induction xs with
  | nil =>
    intro ys _
    cases ys with
    | nil =>
      constructor
      · intro _
        exact .nil
      · intro _
        exact ⟨rfl, by simp [arrElemsEq]⟩
    | cons y ys =>
      constructor
      · rintro ⟨h, _⟩
        simp at h
      · intro h
        cases h
  | cons x xs ih =>
    intro ys hpw
    cases ys with
    | nil =>
      constructor
      · rintro ⟨h, _⟩
        simp at h
      · intro h
        cases h
    | cons y ys =>
      have hx : ∀ a ∈ xs, ∀ b ∈ ys, (jvalEq a b = true ↔ SpecEq a b) := by
        intro a ha b hb
        exact hpw a (List.mem_cons_of_mem _ ha) b (List.mem_cons_of_mem _ hb)
      have hhead := hpw x (List.mem_cons_self _ _) y (List.mem_cons_self _ _)
      constructor
      · rintro ⟨hlen, heq⟩
        simp only [arrElemsEq, Bool.and_eq_true] at heq
        exact .cons (hhead.mp heq.1) ((ih ys hx).mp ⟨by simpa using hlen, heq.2⟩)
      · intro h
        cases h with
        | cons hh ht =>
          obtain ⟨hl, he⟩ := (ih ys hx).mpr ht
          refine ⟨by simp [hl], ?_⟩
          simp only [arrElemsEq, Bool.and_eq_true]
          exact ⟨hhead.mpr hh, he⟩

/-- Fuel-indexed core of the comparator/spec refinement (strong induction on
the size of the left value). -/
theorem jvalEq_iff_specEq_aux (n : Nat) :
    ∀ (v w : JVal), sizeOf v ≤ n → jvalWf v = true → jvalWf w = true →
      (jvalEq v w = true ↔ SpecEq v w) := by
  induction n with
  | zero =>
    intro v w hs _ _
    exfalso
    cases v <;> simp at hs
  | succ n ih =>
    intro v w hs hv hw
    cases v <;> cases w
    all_goals try (apply iff_of_false <;> first | (simp [jvalEq]; done) | (rintro ⟨⟩; done))
    · rename_i s t
      constructor
      · intro h
        have he : s = t := by simpa [jvalEq] using h
        subst he
        exact .str s
      · intro h
        cases h
        simp [jvalEq]
    · rename_i a b
      constructor
      · intro h
        have he : a = b := (jsNumEq_iff a b).mp (by simpa [jvalEq] using h)
        subst he
        exact .num a
      · intro h
        cases h
        simp [jvalEq, jsNumEq_iff]
    · rename_i a b
      constructor
      · intro h
        have he : a = b := by simpa [jvalEq] using h
        subst he
        exact .bool a
      · intro h
        cases h
        simp [jvalEq]
    · constructor
      · intro _
        exact .null
      · intro _
        simp [jvalEq]
    · rename_i a b
      obtain ⟨hnda, hfa⟩ := jvalWf_obj_iff.mp hv
      obtain ⟨hndb, hfb⟩ := jvalWf_obj_iff.mp hw
      simp only [JVal.obj.sizeOf_spec] at hs
      constructor
      · intro h
        simp only [jvalEq, Bool.and_eq_true, beq_iff_eq] at h
        obtain ⟨hlen, hobj⟩ := h
        have hsub : a.map Prod.fst ⊆ b.map Prod.fst := by
          intro k hk
          obtain ⟨v1, hv1⟩ := (lookupField_isSome_iff a k).mpr hk
          have hma := mem_of_lookupField_eq_some a k v1 hv1
          obtain ⟨w1, hw1, _⟩ := forall_of_objFieldsEq a b hobj (k, v1) hma
          exact (lookupField_isSome_iff b k).mp ⟨w1, hw1⟩
        have hperm : (a.map Prod.fst).Perm (b.map Prod.fst) :=
          (hnda.subperm hsub).perm_of_length_le (by simp [hlen])
        refine SpecEq.obj a b
          (fun k => ⟨fun hk => hperm.subset hk, fun hk => hperm.symm.subset hk⟩) ?_
        intro k v1 w1 hva hwb
        obtain ⟨w2, hw2, heq⟩ := forall_of_objFieldsEq a b hobj (k, v1) hva
        have hlw : lookupField b k = some w1 := lookupField_eq_some_of_mem b k w1 hndb hwb
        rw [hlw] at hw2
        injection hw2 with hww
        subst hww
        have hlt := sizeOf_lt_of_mem_fields hva
        simp only [JVal.obj.sizeOf_spec] at hlt
        exact (ih v1 w1 (by omega) (fieldsWf_mem hfa hva) (fieldsWf_mem hfb hwb)).mp heq
      · intro h
        cases h with
        | obj _ _ hkeys hvals =>
          have sp1 := hnda.subperm (fun k hk => (hkeys k).mp hk)
          have sp2 := hndb.subperm (fun k hk => (hkeys k).mpr hk)
          have hlen : a.length = b.length := by
            have l1 := sp1.length_le
            have l2 := sp2.length_le
            simp only [List.length_map] at l1 l2
            omega
          simp only [jvalEq, Bool.and_eq_true, beq_iff_eq]
          refine ⟨hlen, objFieldsEq_of_forall a b ?_⟩
          rintro ⟨k, v1⟩ hma
          have hkb : k ∈ b.map Prod.fst := (hkeys k).mp (List.mem_map.mpr ⟨(k, v1), hma, rfl⟩)
          obtain ⟨⟨k2, w1⟩, hmb, hk2⟩ := List.mem_map.mp hkb
          simp only at hk2
          subst hk2
          have hlw : lookupField b k2 = some w1 := lookupField_eq_some_of_mem b k2 w1 hndb hmb
          have hlt := sizeOf_lt_of_mem_fields hma
          simp only [JVal.obj.sizeOf_spec] at hlt
          exact ⟨w1, hlw,
            (ih v1 w1 (by omega) (fieldsWf_mem hfa hma) (fieldsWf_mem hfb hmb)).mpr
              (hvals k2 v1 w1 hma hmb)⟩
    · rename_i xs ys
      have hxs := jvalWf_arr_iff.mp hv
      have hys := jvalWf_arr_iff.mp hw
      simp only [JVal.arr.sizeOf_spec] at hs
      have hpw : ∀ x ∈ xs, ∀ y ∈ ys, (jvalEq x y = true ↔ SpecEq x y) := by
        intro x hxm y hym
        have hlt := sizeOf_lt_of_mem_elems hxm
        simp only [JVal.arr.sizeOf_spec] at hlt
        exact ih x y (by omega) (elemsWf_mem hxs hxm) (elemsWf_mem hys hym)
      constructor
      · intro h
        simp only [jvalEq, Bool.and_eq_true, beq_iff_eq] at h
        exact SpecEq.arr xs ys
          ((arrElemsEq_iff_specEqList_of_pointwise xs ys hpw).mp ⟨h.1, h.2⟩)
      · intro h
        cases h with
        | arr _ _ hl =>
          have h2 := (arrElemsEq_iff_specEqList_of_pointwise xs ys hpw).mpr hl
          simp only [jvalEq, Bool.and_eq_true, beq_iff_eq]
          exact h2

/-- The comparator of the source coincides with the spec-side equality on
well-formed values: the central refinement behind the `notEq` claim. -/
theorem jvalEq_iff_specEq (v w : JVal) (hv : jvalWf v = true) (hw : jvalWf w = true) :
    jvalEq v w = true ↔ SpecEq v w :=
  jvalEq_iff_specEq_aux (sizeOf v) v w le_rfl hv hw

/-- The value a record's JS object holds at a field name (`id` and `tm` are
ordinary fields of that object). -/
def recGet (r : CondorRec) (k : String) : Option JVal :=
  if k = "id" then some (.str r.id)
  else if k = "tm" then (match r.tm with | some t => some (.num t) | none => none)
  else lookupField r.fields k

/-- Whether a record's JS object has the field named `k`. -/
def recHasKey (r : CondorRec) (k : String) : Bool :=
  (recGet r k).isSome

/-- Spec-side equality of the (possibly absent) values two records hold at
one field name. -/
def specFieldEq : Option JVal → Option JVal → Prop
  | some v, some w => SpecEq v w
  | none, none => True
  | _, _ => False

theorem recGet_eq_lookup_noTm (c : CondorRec) (k : String) (hk : k ≠ "tm") :
    recGet c k = lookupField (recObjNoTm c) k := by
  simp only [recGet, recObjNoTm]
  by_cases hid : k = "id"
  · subst hid
    simp [lookupField]
  · have hid2 : "id" ≠ k := fun he => hid he.symm
    simp [lookupField, hid, hk, hid2]

theorem keys_recObjNoTm (c : CondorRec) :
    (recObjNoTm c).map Prod.fst = "id" :: c.fields.map Prod.fst := rfl

theorem tm_not_mem_keys_recObjNoTm (c : CondorRec) (hc : recWf c = true) :
    "tm" ∉ (recObjNoTm c).map Prod.fst := by
  have h4 : (c.fields.map Prod.fst).Nodup ∧ ("id" ∉ c.fields.map Prod.fst) ∧
      ("tm" ∉ c.fields.map Prod.fst) ∧ fieldsWf c.fields = true := by
    simpa [recWf, and_assoc] using hc
  rw [keys_recObjNoTm]
  intro hmem
  rcases List.mem_cons.mp hmem with he | hm
  · exact absurd he (by simp)
  · exact h4.2.2.1 hm

theorem nodup_keys_recObjNoTm (c : CondorRec) (hc : recWf c = true) :
    ((recObjNoTm c).map Prod.fst).Nodup := by
  have h4 : (c.fields.map Prod.fst).Nodup ∧ ("id" ∉ c.fields.map Prod.fst) ∧
      ("tm" ∉ c.fields.map Prod.fst) ∧ fieldsWf c.fields = true := by
    simpa [recWf, and_assoc] using hc
  rw [keys_recObjNoTm]
  exact List.nodup_cons.mpr ⟨h4.2.1, h4.1⟩

/-- Bridge from the comparator's object view (both records with the `tm` key
deleted) to the claim's per-field view: spec equality of the stripped
objects is exactly "same key sets and same values at every non-`tm` key". -/
theorem specEq_objNoTm_iff (c r : CondorRec) (hc : recWf c = true) (hr : recWf r = true)
    (htc : c.tm.isSome = true) (htr : r.tm.isSome = true) :
    SpecEq (.obj (recObjNoTm c)) (.obj (recObjNoTm r)) ↔
      ((∀ k, recHasKey c k = recHasKey r k) ∧
       (∀ k, k ≠ "tm" → specFieldEq (recGet c k) (recGet r k))) := by
  constructor
  · intro h
    cases h with
    | obj _ _ hkeys hvals =>
      constructor
      · intro k
        by_cases hk : k = "tm"
        · subst hk
          obtain ⟨tc, htc2⟩ := Option.isSome_iff_exists.mp htc
          obtain ⟨tr, htr2⟩ := Option.isSome_iff_exists.mp htr
          simp [recHasKey, recGet, htc2, htr2]
        · simp only [recHasKey, recGet_eq_lookup_noTm _ _ hk]
          cases hcl : lookupField (recObjNoTm c) k with
          | some v =>
            have hkc : k ∈ (recObjNoTm c).map Prod.fst :=
              (lookupField_isSome_iff _ k).mp ⟨v, hcl⟩
            have hkr : k ∈ (recObjNoTm r).map Prod.fst := (hkeys k).mp hkc
            obtain ⟨w, hw⟩ := (lookupField_isSome_iff _ k).mpr hkr
            simp [hw]
          | none =>
            have hkc : k ∉ (recObjNoTm c).map Prod.fst := by
              intro hmem
              obtain ⟨v, hv⟩ := (lookupField_isSome_iff _ k).mpr hmem
              simp [hv] at hcl
            have hkr : k ∉ (recObjNoTm r).map Prod.fst := fun hm => hkc ((hkeys k).mpr hm)
            cases hrl : lookupField (recObjNoTm r) k with
            | some w =>
              exact absurd ((lookupField_isSome_iff _ k).mp ⟨w, hrl⟩) hkr
            | none => simp
      · intro k hk
        rw [recGet_eq_lookup_noTm _ _ hk, recGet_eq_lookup_noTm _ _ hk]
        cases hcl : lookupField (recObjNoTm c) k with
        | some v =>
          have hma := mem_of_lookupField_eq_some _ _ _ hcl
          have hkc : k ∈ (recObjNoTm c).map Prod.fst :=
            (lookupField_isSome_iff _ k).mp ⟨v, hcl⟩
          have hkr : k ∈ (recObjNoTm r).map Prod.fst := (hkeys k).mp hkc
          obtain ⟨w, hw⟩ := (lookupField_isSome_iff _ k).mpr hkr
          have hmb := mem_of_lookupField_eq_some _ _ _ hw
          rw [hw]
          exact hvals k v w hma hmb
        | none =>
          have hkc : k ∉ (recObjNoTm c).map Prod.fst := by
            intro hmem
            obtain ⟨v, hv⟩ := (lookupField_isSome_iff _ k).mpr hmem
            simp [hv] at hcl
          have hkr : k ∉ (recObjNoTm r).map Prod.fst := fun hm => hkc ((hkeys k).mpr hm)
          cases hrl : lookupField (recObjNoTm r) k with
          | some w =>
            exact absurd ((lookupField_isSome_iff _ k).mp ⟨w, hrl⟩) hkr
          | none => trivial
  · rintro ⟨hkeys, hvals⟩
    refine SpecEq.obj _ _ ?_ ?_
    · intro k
      by_cases hk : k = "tm"
      · subst hk
        constructor
        · intro hm
          exact absurd hm (tm_not_mem_keys_recObjNoTm c hc)
        · intro hm
          exact absurd hm (tm_not_mem_keys_recObjNoTm r hr)
      · have h1 := hkeys k
        simp only [recHasKey, recGet_eq_lookup_noTm _ _ hk] at h1
        constructor
        · intro hm
          obtain ⟨v, hv⟩ := (lookupField_isSome_iff _ k).mpr hm
          rw [hv] at h1
          cases hrl : lookupField (recObjNoTm r) k with
          | some w => exact (lookupField_isSome_iff _ k).mp ⟨w, hrl⟩
          | none =>
            rw [hrl] at h1
            simp at h1
        · intro hm
          obtain ⟨w, hw⟩ := (lookupField_isSome_iff _ k).mpr hm
          rw [hw] at h1
          cases hcl : lookupField (recObjNoTm c) k with
          | some v => exact (lookupField_isSome_iff _ k).mp ⟨v, hcl⟩
          | none =>
            rw [hcl] at h1
            simp at h1
    · intro k v w hma hmb
      have hk : k ≠ "tm" := by
        intro he
        subst he
        exact tm_not_mem_keys_recObjNoTm c hc (List.mem_map.mpr ⟨("tm", v), hma, rfl⟩)
      have hv := lookupField_eq_some_of_mem _ k v (nodup_keys_recObjNoTm c hc) hma
      have hw := lookupField_eq_some_of_mem _ k w (nodup_keys_recObjNoTm r hr) hmb
      have h2 := hvals k hk
      rw [recGet_eq_lookup_noTm _ _ hk, recGet_eq_lookup_noTm _ _ hk, hv, hw] at h2
      exact h2


/-- The accumulator `updatedRecs` starts its `forEach` from. -/
def initAcc (st : StateMapping) : UpdatedRecs := ⟨st, [], [], [], []⟩

theorem updatedRecs_eq_foldl (now : Int) (st : StateMapping) (l : List CondorRec) :
    updatedRecs now st l = l.foldl (procRecord now) (initAcc st) := rfl

theorem recWithTm_id (now : Int) (r : CondorRec) : (recWithTm now r).id = r.id := by
  simp only [recWithTm]
  by_cases h : truthyTm r.tm = true
  · simp [h]
  · simp [h]

/-- A single `forEach` iteration reads only the state component of the
accumulator and appends to the list components. -/
theorem procRecord_decomp (now : Int) (acc : UpdatedRecs) (r : CondorRec) :
    procRecord now acc r =
      ⟨(procRecord now (initAcc acc.state) r).state,
       acc.recs ++ (procRecord now (initAcc acc.state) r).recs,
       acc.strs ++ (procRecord now (initAcc acc.state) r).strs,
       acc.errs ++ (procRecord now (initAcc acc.state) r).errs,
       acc.inputsAfter ++ (procRecord now (initAcc acc.state) r).inputsAfter⟩ := by
  simp only [procRecord, initAcc]
  by_cases h1 : r.id = ""
  · simp [h1]
  · simp only [h1, if_false]
    by_cases h2 : supersedes (alookup acc.state (recWithTm now r).id) (recWithTm now r) = true
    · simp [h2]
    · simp [h2]

/-- The `forEach` fold reads only the state component of its starting
accumulator and appends to the list components. -/
theorem foldl_procRecord_decomp (now : Int) :
    ∀ (l : List CondorRec) (acc : UpdatedRecs),
      l.foldl (procRecord now) acc =
        ⟨(l.foldl (procRecord now) (initAcc acc.state)).state,
         acc.recs ++ (l.foldl (procRecord now) (initAcc acc.state)).recs,
         acc.strs ++ (l.foldl (procRecord now) (initAcc acc.state)).strs,
         acc.errs ++ (l.foldl (procRecord now) (initAcc acc.state)).errs,
         acc.inputsAfter ++ (l.foldl (procRecord now) (initAcc acc.state)).inputsAfter⟩ := by
  intro l
  induction l with
  | nil =>
    intro acc
    simp [initAcc]
  | cons r rest ih =>
    intro acc
    simp only [List.foldl_cons]
    rw [ih (procRecord now acc r), procRecord_decomp now acc r]
    rw [ih (procRecord now (initAcc acc.state) r)]
    have hst : (procRecord now (initAcc acc.state) r).state =
        (procRecord now (initAcc (initAcc acc.state).state) r).state := by
      simp [initAcc]
    simp [initAcc, List.append_assoc, hst]

/-- The batch as observed by the caller after the call is the batch itself:
the enhanced `updatedRecs` never writes to a caller record. -/
theorem updatedRecs_inputsAfter (now : Int) (st : StateMapping) :
    ∀ (l : List CondorRec), (updatedRecs now st l).inputsAfter = l := by
  intro l
  induction l generalizing st with
  | nil => rfl
  | cons r rest ih =>
    rw [updatedRecs_eq_foldl]
    simp only [List.foldl_cons]
    rw [foldl_procRecord_decomp now rest (procRecord now (initAcc st) r)]
    rw [procRecord_decomp now (initAcc st) r]
    have h1 : (procRecord now (initAcc st) r).inputsAfter = [r] := by
      simp only [procRecord, initAcc]
      by_cases h1 : r.id = ""
      · simp [h1]
      · simp only [h1, if_false]
        by_cases h2 : supersedes (alookup st (recWithTm now r).id) (recWithTm now r) = true
        · simp [h2]
        · simp [h2]
    have h2 := ih ((procRecord now (initAcc st) r).state)
    rw [updatedRecs_eq_foldl] at h2
    simp only [initAcc] at *
    simp [h1, h2]

/-- The last element of a list satisfying `p`, if any. -/
def lastWith (p : CondorRec → Bool) : List CondorRec → Option CondorRec
  | [] => none
  | r :: rest =>
    match lastWith p rest with
    | some v => some v
    | none => if p r then some r else none

theorem lastWith_append (p : CondorRec → Bool) (l1 l2 : List CondorRec) :
    lastWith p (l1 ++ l2) =
      match lastWith p l2 with
      | some v => some v
      | none => lastWith p l1 := by
  induction l1 with
  | nil =>
    cases h : lastWith p l2 <;> simp [lastWith, h]
  | cons r rest ih =>
    simp only [List.cons_append, lastWith, List.append_eq]
    rw [ih]
    cases h : lastWith p l2 <;> cases h2 : lastWith p rest <;> simp [h, h2]

theorem lastWith_eq_getLast?_filter (p : CondorRec → Bool) :
    ∀ l : List CondorRec, lastWith p l = (l.filter p).getLast? := by
  intro l
  induction l with
  | nil => rfl
  | cons r rest ih =>
    simp only [lastWith, List.filter_cons]
    rw [ih]
    cases h : (rest.filter p).getLast? with
    | some v =>
      have hm : v ∈ (rest.filter p).getLast? := h
      simp only [h]
      by_cases hp : p r = true
      · rw [if_pos hp]
        exact (Option.mem_def.mp (List.mem_getLast?_cons hm)).symm
      · rw [if_neg hp, h]
    | none =>
      have he : rest.filter p = [] := List.getLast?_eq_none_iff.mp h
      simp only [h]
      rw [he]
      by_cases hp : p r = true
      · rw [if_pos hp, if_pos hp]
        rfl
      · rw [if_neg hp, if_neg hp]
        rfl

/-- Same-batch overwrite: after the merge engine runs, the state at any id
is the last record it accepted (and wrote) for that id, or the prior state
entry when it accepted none for that id. -/
theorem updatedRecs_state_lastAccepted (now : Int) :
    ∀ (batch : List CondorRec) (st : StateMapping) (i : String),
      alookup (updatedRecs now st batch).state i =
        (lastWith (fun r => r.id == i) (updatedRecs now st batch).recs).elim
          (alookup st i) some := by
  intro batch
  induction batch with
  | nil =>
    intro st i
    simp [updatedRecs, initAcc, lastWith]
  | cons r rest ih =>
    intro st i
    rw [updatedRecs_eq_foldl]
    simp only [List.foldl_cons]
    rw [foldl_procRecord_decomp now rest (procRecord now (initAcc st) r)]
    by_cases h1 : r.id = ""
    · have hd : procRecord now (initAcc st) r =
          ⟨st, [], [], [⟨"record missing id", none⟩], [r]⟩ := by
        simp [procRecord, initAcc, h1]
      rw [hd]
      have h3 := ih st i
      rw [updatedRecs_eq_foldl] at h3
      simpa [initAcc] using h3
    · by_cases h2 : supersedes (alookup st (recWithTm now r).id) (recWithTm now r) = true
      · have hd : procRecord now (initAcc st) r =
            ⟨aset st (recWithTm now r).id (recWithTm now r), [recWithTm now r],
             [serializeRec (recWithTm now r)],
             validateTimestampErrs now (recWithTm now r).tm (recWithTm now r).id, [r]⟩ := by
          simp [procRecord, initAcc, h1, h2]
        rw [hd]
        have h3 := ih (aset st (recWithTm now r).id (recWithTm now r)) i
        rw [updatedRecs_eq_foldl] at h3
        simp only [initAcc] at h3 ⊢
        rw [h3, lastWith_append]
        cases h5 : lastWith (fun r2 => r2.id == i)
            ((rest.foldl (procRecord now)
              (⟨aset st (recWithTm now r).id (recWithTm now r), [], [], [], []⟩ : UpdatedRecs)).recs) with
        | some v => simp [Option.elim]
        | none =>
          simp only [Option.elim]
          by_cases h4 : (recWithTm now r).id = i
          · rw [← h4, alookup_aset_self]
            simp [lastWith, h4]
          · rw [alookup_aset_ne _ _ _ _ h4]
            have h4b : ((recWithTm now r).id == i) = false := by simpa using h4
            simp [lastWith, h4b]
      · have hd : procRecord now (initAcc st) r =
            ⟨st, [], [], validateTimestampErrs now (recWithTm now r).tm (recWithTm now r).id,
             [r]⟩ := by
          simp [procRecord, initAcc, h1, h2]
        rw [hd]
        have h3 := ih st i
        rw [updatedRecs_eq_foldl] at h3
        simpa [initAcc] using h3

theorem alookup_append {α : Type} (m1 m2 : List (String × α)) (k : String) :
    alookup (m1 ++ m2) k =
      match alookup m1 k with
      | some v => some v
      | none => alookup m2 k := by
  induction m1 with
  | nil => simp [alookup]
  | cons kv rest ih =>
    obtain ⟨k1, v1⟩ := kv
    by_cases h : k1 = k
    · simp [alookup, h]
    · simp [alookup, h, ih]

theorem aset_fresh {α : Type} (m : List (String × α)) (k : String) (v : α)
    (h : alookup m k = none) : aset m k v = m ++ [(k, v)] := by
  induction m with
  | nil => simp [aset]
  | cons kv rest ih =>
    obtain ⟨k1, v1⟩ := kv
    by_cases h1 : k1 = k
    · simp [alookup, h1] at h
    · simp only [alookup, h1, if_false] at h
      simp [aset, h1, ih h]

theorem recWithTm_tm (now : Int) (r : CondorRec) :
    ∃ t : Int, (recWithTm now r).tm = some (.fin t) := by
  simp only [recWithTm]
  by_cases h : truthyTm r.tm = true
  · simp only [h, if_true]
    cases htm : r.tm with
    | none =>
      rw [htm] at h
      simp [truthyTm] at h
    | some n =>
      cases n with
      | fin v => exact ⟨v, by simp [htm]⟩
      | nan =>
        rw [htm] at h
        simp [truthyTm] at h
  · exact ⟨now, by simp [h]⟩

theorem lastWith_eq_none (p : CondorRec → Bool) :
    ∀ l : List CondorRec, (∀ x ∈ l, p x = false) → lastWith p l = none := by
  intro l
  induction l with
  | nil => intro _; rfl
  | cons r rest ih =>
    intro h
    simp [lastWith, ih (fun x hx => h x (List.mem_cons_of_mem _ hx)),
      h r (List.mem_cons_self _ _)]

/-- Every record the merge engine accepts comes from the batch, with its
timestamp defaulted. -/
theorem updatedRecs_recs_sources (now : Int) :
    ∀ (batch : List CondorRec) (st : StateMapping),
      ∀ v ∈ (updatedRecs now st batch).recs, ∃ r ∈ batch, v = recWithTm now r := by
  intro batch
  induction batch with
  | nil =>
    intro st v hv
    simp [updatedRecs, initAcc] at hv
  | cons r rest ih =>
    intro st v hv
    rw [updatedRecs_eq_foldl] at hv
    simp only [List.foldl_cons] at hv
    rw [foldl_procRecord_decomp now rest (procRecord now (initAcc st) r)] at hv
    simp only [List.mem_append] at hv
    rcases hv with hv | hv
    · refine ⟨r, List.mem_cons_self _ _, ?_⟩
      simp only [procRecord, initAcc] at hv
      by_cases h1 : r.id = ""
      · simp [h1] at hv
      · simp only [h1, if_false] at hv
        by_cases h2 : supersedes (alookup st (recWithTm now r).id) (recWithTm now r) = true
        · simp [h2] at hv
          exact hv
        · simp [h2] at hv
    · have h3 := ih ((procRecord now (initAcc st) r).state) v (by
        rw [updatedRecs_eq_foldl]
        have : (initAcc (procRecord now (initAcc st) r).state) =
            (⟨(procRecord now (initAcc st) r).state, [], [], [], []⟩ : UpdatedRecs) := rfl
        rw [this]
        exact hv)
      obtain ⟨r2, hr2, he⟩ := h3
      exact ⟨r2, List.mem_cons_of_mem _ hr2, he⟩

/-- Ids never offered to the merge engine keep their state entry. -/
theorem updatedRecs_state_untouched (now : Int) (batch : List CondorRec)
    (st : StateMapping) (i : String) (h : ∀ r ∈ batch, r.id ≠ i) :
    alookup (updatedRecs now st batch).state i = alookup st i := by
  rw [updatedRecs_state_lastAccepted]
  have hn : lastWith (fun r => r.id == i) (updatedRecs now st batch).recs = none := by
    apply lastWith_eq_none
    intro x hx
    obtain ⟨r, hr, he⟩ := updatedRecs_recs_sources now batch st x hx
    subst he
    simp [recWithTm_id, h r hr]
  rw [hn]
  rfl

/-- The state component of one `load_` line iteration. -/
theorem procLine_fst (now : Int) (acc : StateMapping × List CondorErrM × Nat) (l : LogLine) :
    (procLine now acc l).1 =
      match parseLine l with
      | none => acc.1
      | some r => if supersedes (alookup acc.1 r.id) r then aset acc.1 r.id r else acc.1 := by
  cases hp : parseLine l with
  | none => simp [procLine, hp]
  | some r =>
    simp only [procLine, hp]
    by_cases h2 : supersedes (alookup acc.1 r.id) r = true
    · simp [h2]
    · simp [h2]

/-- Replaying freshly-created lines with pairwise-distinct ids reconstructs
them in order. -/
theorem loadFold_fresh (now : Int) :
    ∀ (rs : List CondorRec) (acc : StateMapping × List CondorErrM × Nat),
      (∀ r ∈ rs, ∃ t : Int, r.tm = some (.fin t)) →
      (∀ r ∈ rs, alookup acc.1 r.id = none) →
      (rs.map (fun r => r.id)).Nodup →
      ((rs.map LogLine.recLine).foldl (procLine now) acc).1 =
        acc.1 ++ rs.map (fun r => (r.id, r)) := by
  intro rs
  induction rs with
  | nil =>
    intro acc _ _ _
    simp
  | cons r rest ih =>
    intro acc htm hfresh hnd
    obtain ⟨t, ht⟩ := htm r (List.mem_cons_self _ _)
    have hparse : parseLine (LogLine.recLine r) = some r := by simp [parseLine, ht]
    simp only [List.map_cons, List.foldl_cons]
    have hsup : supersedes (alookup acc.1 r.id) r = true := by
      rw [hfresh r (List.mem_cons_self _ _)]
      rfl
    have hstep : (procLine now acc (LogLine.recLine r)).1 = acc.1 ++ [(r.id, r)] := by
      rw [procLine_fst, hparse]
      simp only [hsup, if_true]
      exact aset_fresh _ _ _ (hfresh r (List.mem_cons_self _ _))
    simp only [List.map_cons, List.nodup_cons] at hnd
    have hres := ih (procLine now acc (LogLine.recLine r))
      (fun r2 hr2 => htm r2 (List.mem_cons_of_mem _ hr2))
      (fun r2 hr2 => by
        rw [hstep, alookup_append, hfresh r2 (List.mem_cons_of_mem _ hr2)]
        have hne : r.id ≠ r2.id := by
          intro he
          exact hnd.1 (he ▸ List.mem_map.mpr ⟨r2, hr2, rfl⟩)
        simp [alookup, hne])
      hnd.2
    rw [hres, hstep]
    simp

/-- The merge engine on a batch of valid records with pairwise-distinct ids,
all fresh for the given state, accepts every record in order. -/
theorem updatedRecs_fresh (now : Int) :
    ∀ (rs : List CondorRec) (st : StateMapping),
      (∀ r ∈ rs, r.id ≠ "") →
      (∀ r ∈ rs, alookup st r.id = none) →
      (rs.map (fun r => r.id)).Nodup →
      (updatedRecs now st rs).recs = rs.map (recWithTm now) ∧
      (updatedRecs now st rs).state =
        st ++ rs.map (fun r => ((recWithTm now r).id, recWithTm now r)) := by
  intro rs
  induction rs with
  | nil =>
    intro st _ _ _
    constructor
    · rfl
    · simp [updatedRecs, initAcc]
  | cons r rest ih =>
    intro st hvalid hfresh hnd
    have h1 : ¬ r.id = "" := hvalid r (List.mem_cons_self _ _)
    have hsup : supersedes (alookup st (recWithTm now r).id) (recWithTm now r) = true := by
      rw [recWithTm_id, hfresh r (List.mem_cons_self _ _)]
      rfl
    have hd : procRecord now (initAcc st) r =
        ⟨aset st (recWithTm now r).id (recWithTm now r), [recWithTm now r],
         [serializeRec (recWithTm now r)],
         validateTimestampErrs now (recWithTm now r).tm (recWithTm now r).id, [r]⟩ := by
      simp [procRecord, initAcc, h1, hsup]
    have hst : aset st (recWithTm now r).id (recWithTm now r) =
        st ++ [((recWithTm now r).id, recWithTm now r)] := by
      apply aset_fresh
      rw [recWithTm_id]
      exact hfresh r (List.mem_cons_self _ _)
    simp only [List.map_cons, List.nodup_cons] at hnd
    have hrest := ih (aset st (recWithTm now r).id (recWithTm now r))
      (fun r2 hr2 => hvalid r2 (List.mem_cons_of_mem _ hr2))
      (fun r2 hr2 => by
        rw [hst, alookup_append, hfresh r2 (List.mem_cons_of_mem _ hr2)]
        have hne : r.id ≠ r2.id := by
          intro he
          exact hnd.1 (he ▸ List.mem_map.mpr ⟨r2, hr2, rfl⟩)
        simp [alookup, recWithTm_id, hne])
      hnd.2
    rw [updatedRecs_eq_foldl]
    simp only [List.foldl_cons]
    rw [foldl_procRecord_decomp now rest (procRecord now (initAcc st) r), hd]
    rw [updatedRecs_eq_foldl] at hrest
    constructor
    · simp only [initAcc] at hrest ⊢
      rw [hrest.1]
      simp
    · simp only [initAcc] at hrest ⊢
      rw [hrest.2, hst]
      simp [List.append_assoc]

theorem parseLine_tm {l : LogLine} {r : CondorRec} (h : parseLine l = some r) :
    ∃ t : Int, r.tm = some (.fin t) := by
  cases l with
  | badLine s => simp [parseLine] at h
  | recLine r2 =>
    simp only [parseLine] at h
    cases h2 : r2.tm with
    | none =>
      rw [h2] at h
      simp at h
    | some n =>
      cases n with
      | fin t =>
        rw [h2] at h
        simp only [Option.some.injEq] at h
        exact ⟨t, h ▸ h2⟩
      | nan =>
        rw [h2] at h
        simp at h

/-- Preservation phase of reaching the winner: once the record with the
strictly greatest timestamp for its id sits in the mapping, no further line
(each being the record itself or strictly older) evicts it. -/
theorem loadFold_keeps (now : Int) (r : CondorRec) (t : Int)
    (ht : r.tm = some (.fin t)) :
    ∀ (lines : List LogLine) (acc : StateMapping × List CondorErrM × Nat),
      (∀ l ∈ lines, ∀ r2 t2, parseLine l = some r2 → r2.id = r.id →
        r2.tm = some (.fin t2) → r2 = r ∨ t2 < t) →
      alookup acc.1 r.id = some r →
      alookup ((lines.foldl (procLine now) acc)).1 r.id = some r := by
  intro lines
  induction lines with
  | nil =>
    intro acc _ h
    exact h
  | cons l rest ih =>
    intro acc hmax hacc
    simp only [List.foldl_cons]
    apply ih _ (fun l2 hl2 => hmax l2 (List.mem_cons_of_mem _ hl2))
    rw [procLine_fst]
    cases hp : parseLine l with
    | none => exact hacc
    | some r2 =>
      by_cases hid : r2.id = r.id
      · obtain ⟨t2, ht2⟩ := parseLine_tm hp
        rcases hmax l (List.mem_cons_self _ _) r2 t2 hp hid ht2 with he | hlt
        · subst he
          by_cases hs : supersedes (alookup acc.1 r2.id) r2 = true
          · simp only [hs, if_true]
            exact alookup_aset_self _ _ _
          · simp only [Bool.not_eq_true] at hs
            simp only [hs, Bool.false_eq_true, if_false]
            exact hacc
        · have hs : supersedes (alookup acc.1 r2.id) r2 = false := by
            rw [hid, hacc]
            simp only [supersedes, jsTmLt, jsTmEq, ht, ht2]
            have h1 : (decide (t < t2)) = false := by
              simp only [decide_eq_false_iff_not]
              omega
            have h2 : (t == t2) = false := by
              simp only [beq_eq_false_iff_ne, ne_eq]
              omega
            simp [h1, h2]
          simp [hs, hacc]
      · by_cases hs : supersedes (alookup acc.1 r2.id) r2 = true
        · simp only [hs, if_true]
          rw [alookup_aset_ne _ _ _ _ hid]
          exact hacc
        · simp only [Bool.not_eq_true] at hs
          simp [hs, hacc]

/-- Arrival-phase invariant: before the winner's line arrives, the mapping
at its id holds nothing, the winner, or a strictly older record. -/
theorem loadFold_inv (now : Int) (r : CondorRec) (t : Int)
    (ht : r.tm = some (.fin t)) :
    ∀ (lines : List LogLine) (acc : StateMapping × List CondorErrM × Nat),
      (∀ l ∈ lines, ∀ r2 t2, parseLine l = some r2 → r2.id = r.id →
        r2.tm = some (.fin t2) → r2 = r ∨ t2 < t) →
      (alookup acc.1 r.id = none ∨ alookup acc.1 r.id = some r ∨
        ∃ r2 t2, alookup acc.1 r.id = some r2 ∧ r2.tm = some (.fin t2) ∧ t2 < t) →
      (alookup (lines.foldl (procLine now) acc).1 r.id = none ∨
        alookup (lines.foldl (procLine now) acc).1 r.id = some r ∨
        ∃ r2 t2, alookup (lines.foldl (procLine now) acc).1 r.id = some r2 ∧
          r2.tm = some (.fin t2) ∧ t2 < t) := by
  intro lines
  induction lines with
  | nil =>
    intro acc _ h
    exact h
  | cons l rest ih =>
    intro acc hmax hacc
    simp only [List.foldl_cons]
    apply ih _ (fun l2 hl2 => hmax l2 (List.mem_cons_of_mem _ hl2))
    rw [procLine_fst]
    cases hp : parseLine l with
    | none => exact hacc
    | some r2 =>
      by_cases hs : supersedes (alookup acc.1 r2.id) r2 = true
      · simp only [hs, if_true]
        by_cases hid : r2.id = r.id
        · obtain ⟨t2, ht2⟩ := parseLine_tm hp
          rcases hmax l (List.mem_cons_self _ _) r2 t2 hp hid ht2 with he | hlt
          · subst he
            rw [← hid]
            right
            left
            exact alookup_aset_self _ _ _
          · rw [← hid]
            right
            right
            exact ⟨r2, t2, alookup_aset_self _ _ _, ht2, hlt⟩
        · rw [alookup_aset_ne _ _ _ _ hid]
          exact hacc
      · simp only [Bool.not_eq_true] at hs
        simp only [hs, Bool.false_eq_true, if_false]
        exact hacc

/-- Latest-wins on reload: a log line whose record has the strictly greatest
timestamp among all same-id lines (duplicates of itself allowed) is the one
the replay leaves in the mapping, regardless of where it sits in the file. -/
theorem loadFold_unique_max (now : Int) (lines : List LogLine) (r : CondorRec) (t : Int)
    (ht : r.tm = some (.fin t)) (hmem : LogLine.recLine r ∈ lines)
    (hmax : ∀ l ∈ lines, ∀ r2 t2, parseLine l = some r2 → r2.id = r.id →
      r2.tm = some (.fin t2) → r2 = r ∨ t2 < t) :
    alookup (lines.foldl (procLine now)
      (([], [], 0) : StateMapping × List CondorErrM × Nat)).1 r.id = some r := by
  obtain ⟨pre, post, he⟩ := List.append_of_mem hmem
  subst he
  rw [List.foldl_append]
  have hinv := loadFold_inv now r t ht pre (([], [], 0) : StateMapping × List CondorErrM × Nat)
    (fun l hl => hmax l (List.mem_append_left _ hl)) (Or.inl rfl)
  simp only [List.foldl_cons]
  have hparse : parseLine (LogLine.recLine r) = some r := by simp [parseLine, ht]
  have hstep : alookup ((procLine now (pre.foldl (procLine now) ([], [], 0))
      (LogLine.recLine r)).1) r.id = some r := by
    rw [procLine_fst]
    simp only [hparse]
    rcases hinv with h | h | ⟨r2, t2, h, ht2, hlt⟩
    · rw [h]
      simp [supersedes, alookup_aset_self]
    · by_cases hs : supersedes (alookup (pre.foldl (procLine now) ([], [], 0)).1 r.id) r = true
      · simp [hs, alookup_aset_self]
      · simp only [Bool.not_eq_true] at hs
        simp only [hs, Bool.false_eq_true, if_false]
        exact h
    · rw [h]
      have hs : supersedes (some r2) r = true := by
        simp only [supersedes, jsTmLt, jsTmEq, ht, ht2]
        have h1 : (decide (t2 < t)) = true := by
          simp only [decide_eq_true_eq]
          omega
        simp [h1]
      simp [hs, alookup_aset_self]
  exact loadFold_keeps now r t ht post _
    (fun l hl => hmax l (List.mem_append_right _ (List.mem_cons_of_mem _ hl))) hstep

theorem recWithTm_truthy (now : Int) (r : CondorRec) (h : truthyTm r.tm = true) :
    recWithTm now r = r := by
  simp [recWithTm, h]

theorem jsTmLt_irrefl (o : Option JsNum) : jsTmLt o o = false := by
  cases o with
  | none => rfl
  | some n =>
    cases n with
    | fin v => simp [jsTmLt]
    | nan => rfl

/-- A record never supersedes itself: its timestamp is not strictly greater
than its own, and on a timestamp tie the comparator reports no structural
difference. -/
theorem supersedes_self (r : CondorRec) (hwf : recWf r = true) :
    supersedes (some r) r = false := by
  simp [supersedes, jsTmLt_irrefl, notEq_self_eq_false r hwf]

/-- When the supersession test fails for every valid candidate against the
state, the merge engine accepts nothing and leaves the state untouched. -/
theorem updatedRecs_rejects_all (now2 : Int) :
    ∀ (batch : List CondorRec) (st2 : StateMapping),
      (∀ r ∈ batch, r.id ≠ "" →
        supersedes (alookup st2 (recWithTm now2 r).id) (recWithTm now2 r) = false) →
      (updatedRecs now2 st2 batch).recs = [] ∧ (updatedRecs now2 st2 batch).state = st2 := by
  intro batch
  induction batch with
  | nil =>
    intro st2 _
    exact ⟨rfl, rfl⟩
  | cons r rest ih =>
    intro st2 hrej
    have hstep : (procRecord now2 (initAcc st2) r).state = st2 ∧
        (procRecord now2 (initAcc st2) r).recs = [] := by
      by_cases h1 : r.id = ""
      · simp [procRecord, initAcc, h1]
      · have h2 := hrej r (List.mem_cons_self _ _) h1
        simp [procRecord, initAcc, h1, h2]
    have hrest := ih ((procRecord now2 (initAcc st2) r).state) (by
      rw [hstep.1]
      intro r2 hr2 h2
      exact hrej r2 (List.mem_cons_of_mem _ hr2) h2)
    rw [updatedRecs_eq_foldl]
    simp only [List.foldl_cons]
    rw [foldl_procRecord_decomp now2 rest (procRecord now2 (initAcc st2) r)]
    rw [updatedRecs_eq_foldl] at hrest
    simp only [initAcc] at hrest hstep ⊢
    constructor
    · rw [hstep.2]
      simp [hrest.1]
    · rw [hrest.2, hstep.1]

theorem procRecord_state_invalid (now : Int) (acc : UpdatedRecs) (r : CondorRec)
    (h1 : r.id = "") : (procRecord now acc r).state = acc.state := by
  simp [procRecord, h1]

theorem procRecord_state_valid (now : Int) (acc : UpdatedRecs) (r : CondorRec)
    (h1 : ¬ r.id = "") :
    (procRecord now acc r).state =
      if supersedes (alookup acc.state (recWithTm now r).id) (recWithTm now r) = true
      then aset acc.state (recWithTm now r).id (recWithTm now r)
      else acc.state := by
  simp only [procRecord, h1, if_false]
  by_cases h2 : supersedes (alookup acc.state (recWithTm now r).id) (recWithTm now r) = true
  · simp [h2]
  · simp [h2]

/-- After one merge pass over a batch with pairwise-distinct ids, truthy
timestamps and well-formed records, no record of the batch supersedes the
resulting state: the basis of save idempotence. -/
theorem updatedRecs_rejects_member (now : Int) (batch : List CondorRec) (st : StateMapping)
    (r : CondorRec) (hr : r ∈ batch)
    (hnd : (batch.map (fun r2 => r2.id)).Nodup)
    (htr : truthyTm r.tm = true) (hwf : recWf r = true) (hvalid : r.id ≠ "") :
    supersedes (alookup (updatedRecs now st batch).state r.id) r = false := by
  obtain ⟨pre, post, he⟩ := List.append_of_mem hr
  subst he
  have hpost : ∀ r2 ∈ post, r2.id ≠ r.id := by
    have h1 : ((pre ++ r :: post).map (fun r2 => r2.id)).Nodup := hnd
    rw [List.map_append, List.map_cons] at h1
    have h2 := (List.nodup_append.mp h1).2.1
    have h3 := (List.nodup_cons.mp h2).1
    intro r2 hr2 he2
    exact h3 (he2 ▸ List.mem_map.mpr ⟨r2, hr2, rfl⟩)
  rw [updatedRecs_eq_foldl, List.foldl_append, List.foldl_cons]
  have hstate : (post.foldl (procRecord now)
        (procRecord now (pre.foldl (procRecord now) (initAcc st)) r)).state =
      (updatedRecs now
        ((procRecord now (pre.foldl (procRecord now) (initAcc st)) r).state) post).state := by
    rw [updatedRecs_eq_foldl]
    rw [foldl_procRecord_decomp now post
      (procRecord now (pre.foldl (procRecord now) (initAcc st)) r)]
  rw [hstate]
  rw [updatedRecs_state_untouched now post _ r.id hpost]
  have hrwt : recWithTm now r = r := recWithTm_truthy now r htr
  rw [procRecord_state_valid now _ r hvalid, hrwt]
  by_cases hs : supersedes
      (alookup (pre.foldl (procRecord now) (initAcc st)).state r.id) r = true
  · rw [if_pos hs, alookup_aset_self]
    exact supersedes_self r hwf
  · rw [if_neg hs]
    simpa using hs

theorem procRecord_invalid_eq (now : Int) (acc : UpdatedRecs) (r : CondorRec)
    (h : r.id = "") :
    procRecord now acc r =
      { acc with errs := acc.errs ++ [⟨"record missing id", none⟩],
                 inputsAfter := acc.inputsAfter ++ [r] } := by
  simp [procRecord, h]

/-- A record with a falsy id is reported and skipped; the records before and
after it in the batch are processed exactly as if it were absent. -/
theorem updatedRecs_skip_invalid (now : Int) (st : StateMapping) (xs ys : List CondorRec)
    (bad : CondorRec) (hbad : bad.id = "") :
    (updatedRecs now st (xs ++ bad :: ys)).recs = (updatedRecs now st (xs ++ ys)).recs ∧
    (updatedRecs now st (xs ++ bad :: ys)).state = (updatedRecs now st (xs ++ ys)).state ∧
    (⟨"record missing id", none⟩ : CondorErrM) ∈ (updatedRecs now st (xs ++ bad :: ys)).errs := by
  rw [updatedRecs_eq_foldl, updatedRecs_eq_foldl, List.foldl_append, List.foldl_append,
    List.foldl_cons]
  rw [procRecord_invalid_eq now _ bad hbad]
  have hd1 := foldl_procRecord_decomp now ys
    ({ xs.foldl (procRecord now) (initAcc st) with
       errs := (xs.foldl (procRecord now) (initAcc st)).errs ++ [⟨"record missing id", none⟩],
       inputsAfter := (xs.foldl (procRecord now) (initAcc st)).inputsAfter ++ [bad] })
  have hd2 := foldl_procRecord_decomp now ys (xs.foldl (procRecord now) (initAcc st))
  rw [hd1, hd2]
  refine ⟨rfl, rfl, ?_⟩
  simp

theorem foldl_procLine_fst_only (now : Int) :
    ∀ (lines : List LogLine) (acc1 acc2 : StateMapping × List CondorErrM × Nat),
      acc1.1 = acc2.1 →
      (lines.foldl (procLine now) acc1).1 = (lines.foldl (procLine now) acc2).1 := by
  intro lines
  induction lines with
  | nil =>
    intro _ _ h
    exact h
  | cons l rest ih =>
    intro acc1 acc2 h
    simp only [List.foldl_cons]
    apply ih
    rw [procLine_fst, procLine_fst, h]

theorem procLine_errs_mono (now : Int) (acc : StateMapping × List CondorErrM × Nat)
    (l : LogLine) : ∀ e ∈ acc.2.1, e ∈ (procLine now acc l).2.1 := by
  intro e he
  cases hp : parseLine l with
  | none => simp [procLine, hp, he]
  | some r =>
    simp only [procLine, hp]
    by_cases h2 : supersedes (alookup acc.1 r.id) r = true
    · simp [h2, he]
    · simp [h2, he]

theorem foldl_procLine_errs_mono (now : Int) :
    ∀ (lines : List LogLine) (acc : StateMapping × List CondorErrM × Nat),
      ∀ e ∈ acc.2.1, e ∈ (lines.foldl (procLine now) acc).2.1 := by
  intro lines
  induction lines with
  | nil =>
    intro _ e he
    exact he
  | cons l rest ih =>
    intro acc e he
    simp only [List.foldl_cons]
    exact ih _ e (procLine_errs_mono now acc l e he)

theorem procLine_linenum (now : Int) (acc : StateMapping × List CondorErrM × Nat)
    (l : LogLine) : (procLine now acc l).2.2 = acc.2.2 + 1 := by
  cases hp : parseLine l with
  | none => simp [procLine, hp]
  | some r =>
    simp only [procLine, hp]
    by_cases h2 : supersedes (alookup acc.1 r.id) r = true
    · simp [h2]
    · simp [h2]

theorem foldl_procLine_linenum (now : Int) :
    ∀ (lines : List LogLine) (acc : StateMapping × List CondorErrM × Nat),
      (lines.foldl (procLine now) acc).2.2 = acc.2.2 + lines.length := by
  intro lines
  induction lines with
  | nil =>
    intro acc
    simp
  | cons l rest ih =>
    intro acc
    simp only [List.foldl_cons, ih, procLine_linenum, List.length_cons]
    omega

theorem procLine_bad_mem (now : Int) (acc : StateMapping × List CondorErrM × Nat)
    (raw : String) :
    (⟨"failed to get record from line: " ++ toString (acc.2.2 + 1), none⟩ : CondorErrM) ∈
      (procLine now acc (.badLine raw)).2.1 := by
  simp [procLine, parseLine]

/-- A malformed log line is reported with its line number and skipped; the
replayed state is the one obtained with the line absent. -/
theorem loadFold_skip_bad (now : Int) (lines1 lines2 : List LogLine) (raw : String)
    (acc : StateMapping × List CondorErrM × Nat) :
    ((lines1 ++ .badLine raw :: lines2).foldl (procLine now) acc).1 =
      ((lines1 ++ lines2).foldl (procLine now) acc).1 ∧
    (⟨"failed to get record from line: " ++ toString (acc.2.2 + lines1.length + 1), none⟩ :
        CondorErrM) ∈
      ((lines1 ++ .badLine raw :: lines2).foldl (procLine now) acc).2.1 := by
  rw [List.foldl_append, List.foldl_append, List.foldl_cons]
  constructor
  · apply foldl_procLine_fst_only
    rw [procLine_fst]
    simp [parseLine]
  · apply foldl_procLine_errs_mono
    have hn := foldl_procLine_linenum now lines1 acc
    have hb := procLine_bad_mem now (lines1.foldl (procLine now) acc) raw
    rw [hn] at hb
    exact hb

/-- The claim-side statement of "the two records differ structurally outside
the `tm` field": some field name present on one side only, or some non-`tm`
field with spec-unequal values. -/
def specRecDiffers (c r : CondorRec) : Prop :=
  (∃ k, recHasKey c k ≠ recHasKey r k) ∨
  (∃ k, k ≠ "tm" ∧ ¬ specFieldEq (recGet c k) (recGet r k))

/-- The comparator decides exactly the claim-side difference (shared by the
comparator claim and the supersession claims). -/
theorem notEq_iff_specRecDiffers (c r : CondorRec)
    (hc : recWf c = true) (hr : recWf r = true)
    (htc : c.tm.isSome = true) (htr : r.tm.isSome = true) :
    notEq c r = true ↔ specRecDiffers c r := by
  rw [notEq]
  have hiff := jvalEq_iff_specEq _ _ (recObjNoTm_wf c hc) (recObjNoTm_wf r hr)
  rw [specEq_objNoTm_iff c r hc hr htc htr] at hiff
  constructor
  · intro h
    have hne : ¬ ((∀ k, recHasKey c k = recHasKey r k) ∧
        (∀ k, k ≠ "tm" → specFieldEq (recGet c k) (recGet r k))) := by
      intro hs
      have h2 := hiff.mpr hs
      simp [h2] at h
    rw [not_and_or] at hne
    rcases hne with h1 | h1
    · left
      push_neg at h1
      exact h1
    · right
      push_neg at h1
      exact h1
  · intro h
    have hne : ¬ ((∀ k, recHasKey c k = recHasKey r k) ∧
        (∀ k, k ≠ "tm" → specFieldEq (recGet c k) (recGet r k))) := by
      rintro ⟨h1, h2⟩
      rcases h with ⟨k, hk⟩ | ⟨k, hk, hk2⟩
      · exact hk (h1 k)
      · exact hk2 (h2 k hk)
    cases hq : jvalEq (.obj (recObjNoTm c)) (.obj (recObjNoTm r)) with
    | true => exact absurd (hiff.mp hq) hne
    | false => rfl

/-- The merge condition against a stored record, in claim terms: strictly
greater timestamp, or equal timestamp with a structural difference outside
`tm`. -/
theorem supersedes_iff (c r : CondorRec) (tc tr : Int)
    (hc : c.tm = some (.fin tc)) (hr : r.tm = some (.fin tr))
    (hwc : recWf c = true) (hwr : recWf r = true) :
    (supersedes (some c) r = true) ↔ (tc < tr ∨ (tc = tr ∧ specRecDiffers c r)) := by
  have hiq := notEq_iff_specRecDiffers c r hwc hwr (by simp [hc]) (by simp [hr])
  simp only [supersedes, jsTmLt, jsTmEq, hc, hr, Bool.or_eq_true, Bool.and_eq_true,
    decide_eq_true_eq, beq_iff_eq]
  constructor
  · rintro (h | ⟨h1, h2⟩)
    · exact Or.inl h
    · exact Or.inr ⟨h1, hiq.mp h2⟩
  · rintro (h | ⟨h1, h2⟩)
    · exact Or.inl h
    · exact Or.inr ⟨h1, hiq.mpr h2⟩

/-- C3: the equality comparator `notEq(current, candidate)` returns true
exactly when some field other than `tm` differs in value (recursively for
nested object values, directly for scalars) or when the records' sets of
field names differ; and on one and the same record (the same-reference fast
path) it returns false. -/
theorem C3_notEq_spec (c r : CondorRec)
    (hc : recWf c = true) (hr : recWf r = true)
    (htc : c.tm.isSome = true) (htr : r.tm.isSome = true) :
    (notEq c r = true ↔ specRecDiffers c r) ∧ notEq c c = false :=
  ⟨notEq_iff_specRecDiffers c r hc hr htc htr, notEq_self_eq_false c hc⟩

theorem C3_notEq_spec_witness :
    (recWf (⟨"a", some (.fin 5), [("v", .num (.fin 1))]⟩ : CondorRec) = true ∧
     recWf (⟨"b", some (.fin 5), []⟩ : CondorRec) = true) ∧
    ((notEq (⟨"a", some (.fin 5), [("v", .num (.fin 1))]⟩ : CondorRec)
        (⟨"b", some (.fin 5), []⟩ : CondorRec) = true ↔
      specRecDiffers ⟨"a", some (.fin 5), [("v", .num (.fin 1))]⟩ ⟨"b", some (.fin 5), []⟩) ∧
     notEq (⟨"a", some (.fin 5), [("v", .num (.fin 1))]⟩ : CondorRec)
       ⟨"a", some (.fin 5), [("v", .num (.fin 1))]⟩ = false) :=
  ⟨⟨by simp [recWf, fieldsWf, jvalWf], by simp [recWf, fieldsWf]⟩,
   C3_notEq_spec ⟨"a", some (.fin 5), [("v", .num (.fin 1))]⟩ ⟨"b", some (.fin 5), []⟩
     (by simp [recWf, fieldsWf, jvalWf]) (by simp [recWf, fieldsWf]) rfl rfl⟩

/-- C4: a candidate record lacking a `tm` field gets the current wall-clock
time as its timestamp on a derived copy, the caller's batch is unchanged
after the call, and every record the engine accepts is such a (possibly
defaulted) candidate. -/
theorem C4_default_tm_on_copy (now : Int) (cached : StateMapping) (recs : List CondorRec) :
    (updatedRecs now cached recs).inputsAfter = recs ∧
    (∀ r ∈ recs, r.tm = none →
      recWithTm now r = { r with tm := some (.fin now) }) ∧
    (∀ v ∈ (updatedRecs now cached recs).recs, ∃ r ∈ recs, v = recWithTm now r) := by
  refine ⟨updatedRecs_inputsAfter now cached recs, ?_, updatedRecs_recs_sources now recs cached⟩
  intro r _ h
  simp [recWithTm, truthyTm, h]

/-- C7: loading a path whose on-disk size exceeds the ceiling fails with a
`FILE_TOO_LARGE` report before reading any content (the outcome does not
depend on the file's lines), returns the null sentinel, and leaves the world
— in particular the cache entry for the path — untouched. -/
theorem C7_size_ceiling (w : World) (dbfile : String) (fd : FileData)
    (maxFileSizeBytes : Nat)
    (hcache : alookup w.cache dbfile = none)
    (hfile : alookup w.files dbfile = some fd)
    (hsize : fd.size > maxFileSizeBytes) :
    load_ w dbfile maxFileSizeBytes =
      (none, w,
       [{ message := "File is too large: " ++ dbfile, code := some "FILE_TOO_LARGE" }]) ∧
    load w dbfile maxFileSizeBytes =
      (none, w,
       [{ message := "File is too large: " ++ dbfile, code := some "FILE_TOO_LARGE" }]) := by
  have h1 : load_ w dbfile maxFileSizeBytes =
      (none, w,
       [{ message := "File is too large: " ++ dbfile, code := some "FILE_TOO_LARGE" }]) := by
    simp only [load_, hcache, hfile]
    rw [if_pos hsize]
  exact ⟨h1, by rw [load, h1]⟩

theorem C7_size_ceiling_witness :
    load_ ⟨[], [("db", ⟨[], 104857601, true⟩)], 0⟩ "db" defaultMaxFileSizeBytes =
      (none, ⟨[], [("db", ⟨[], 104857601, true⟩)], 0⟩,
       [{ message := "File is too large: db", code := some "FILE_TOO_LARGE" }]) :=
  (C7_size_ceiling ⟨[], [("db", ⟨[], 104857601, true⟩)], 0⟩ "db" ⟨[], 104857601, true⟩
    defaultMaxFileSizeBytes rfl rfl (by norm_num [defaultMaxFileSizeBytes])).1

/-- C9: when `create` fails after its target-existence check passed (zero
valid records, or the write failed), the cache entry for the path has
already been replaced with the newly merged mapping; a subsequent `load` of
the path succeeds from the cache alone — the file still does not exist — and
returns that mapping. -/
theorem C9_create_failure_caches (w : World) (initialRecords : List CondorRec)
    (dbfile : String) (writeOk : Bool) (lock : LockOutcome)
    (hlock : lock ≠ .failed)
    (hfile : alookup w.files dbfile = none)
    (hfail : (updatedRecs w.now [] initialRecords).recs = [] ∨ writeOk = false) :
    ∃ w1 errs, create lock w initialRecords dbfile writeOk = .ok (none, w1, errs) ∧
      alookup w1.cache dbfile = some (updatedRecs w.now [] initialRecords).state ∧
      alookup w1.files dbfile = none ∧
      load w1 dbfile defaultMaxFileSizeBytes =
        (some (unwrap (updatedRecs w.now [] initialRecords).state), w1, []) := by
  have hbody : createBody w initialRecords dbfile writeOk =
      (none, { w with cache := aset w.cache dbfile (updatedRecs w.now [] initialRecords).state },
       (updatedRecs w.now [] initialRecords).errs ++
         (if (updatedRecs w.now [] initialRecords).recs.length = 0 then
           [{ message := "failed to find any valid records to initialize file: " ++ dbfile }]
          else [{ message := "create failed writing: " ++ dbfile }])) := by
    by_cases hrecs : (updatedRecs w.now [] initialRecords).recs.length = 0
    · simp [createBody, hfile, hrecs]
    · have hwk : writeOk = false := by
        rcases hfail with h | h
        · exact absurd (by simp [h]) hrecs
        · exact h
      simp [createBody, hfile, hrecs, hwk]
  refine ⟨{ w with cache := aset w.cache dbfile (updatedRecs w.now [] initialRecords).state },
    (updatedRecs w.now [] initialRecords).errs ++
      (if (updatedRecs w.now [] initialRecords).recs.length = 0 then
        [{ message := "failed to find any valid records to initialize file: " ++ dbfile }]
       else [{ message := "create failed writing: " ++ dbfile }]), ?_, ?_, hfile, ?_⟩
  · cases lock with
    | failed => exact absurd rfl hlock
    | ok => simp [create, hbody]
    | enoent => simp [create, hbody]
  · simp [alookup_aset_self]
  · simp [load, load_, alookup_aset_self, unwrap]

theorem C9_create_failure_caches_witness :
    (LockOutcome.ok ≠ LockOutcome.failed ∧
     alookup (⟨[], [], 0⟩ : World).files "db" = none ∧
     ((updatedRecs (0 : Int) [] ([] : List CondorRec)).recs = [] ∨ True = False)) ∧
    (∃ w1 errs, create .ok ⟨[], [], 0⟩ [] "db" true = .ok (none, w1, errs) ∧
      alookup w1.cache "db" = some (updatedRecs (0 : Int) [] ([] : List CondorRec)).state ∧
      alookup w1.files "db" = none ∧
      load w1 "db" defaultMaxFileSizeBytes =
        (some (unwrap (updatedRecs (0 : Int) [] ([] : List CondorRec)).state), w1, [])) :=
  ⟨⟨by simp, rfl, Or.inl rfl⟩,
   C9_create_failure_caches ⟨[], [], 0⟩ [] "db" true .ok (by simp) rfl (Or.inl rfl)⟩

theorem lastWith_mem (p : CondorRec → Bool) :
    ∀ (l : List CondorRec) (v : CondorRec), lastWith p l = some v → v ∈ l := by
  intro l
  induction l with
  | nil =>
    intro v h
    simp [lastWith] at h
  | cons r rest ih =>
    intro v h
    simp only [lastWith] at h
    cases h2 : lastWith p rest with
    | some w =>
      rw [h2] at h
      cases h
      exact List.mem_cons_of_mem _ (ih _ h2)
    | none =>
      rw [h2] at h
      by_cases hp : p r
      · simp only [hp, if_true, Option.some.injEq] at h
        subst h
        exact List.mem_cons_self _ _
      · simp [hp] at h

/-- C2: candidates are processed in input order, each supersession decision
seeing the state as already updated by the earlier candidates of the batch
(continuing a pass over `xs ++ ys` equals restarting over `ys` from the
state `xs` left); for any id, the state keeps exactly the last accepted —
the final version satisfying the supersession rule — which is also among
the records written by the call. -/
theorem C2_within_batch_overwrite (now : Int) (st : StateMapping)
    (xs ys batch : List CondorRec) (i : String) :
    (updatedRecs now st (xs ++ ys)).state =
      (updatedRecs now (updatedRecs now st xs).state ys).state ∧
    alookup (updatedRecs now st batch).state i =
      (lastWith (fun r => r.id == i) (updatedRecs now st batch).recs).elim
        (alookup st i) some ∧
    lastWith (fun r => r.id == i) (updatedRecs now st batch).recs =
      ((updatedRecs now st batch).recs.filter (fun r => r.id == i)).getLast? ∧
    (∀ v, lastWith (fun r => r.id == i) (updatedRecs now st batch).recs = some v →
      v ∈ (updatedRecs now st batch).recs ∧
      alookup (updatedRecs now st batch).state i = some v) := by
  refine ⟨?_, updatedRecs_state_lastAccepted now batch st i,
    lastWith_eq_getLast?_filter _ _, ?_⟩
  · rw [updatedRecs_eq_foldl, updatedRecs_eq_foldl, updatedRecs_eq_foldl, List.foldl_append]
    rw [foldl_procRecord_decomp now ys (xs.foldl (procRecord now) (initAcc st))]
  · intro v hv
    refine ⟨lastWith_mem _ _ v hv, ?_⟩
    rw [updatedRecs_state_lastAccepted now batch st i, hv]
    rfl

theorem C2_within_batch_overwrite_witness :
    alookup (updatedRecs 0 []
        [⟨"X", some (.fin 1), []⟩, ⟨"X", some (.fin 2), []⟩]).state "X" =
      (lastWith (fun r => r.id == "X") (updatedRecs 0 []
        [⟨"X", some (.fin 1), []⟩, ⟨"X", some (.fin 2), []⟩]).recs).elim
        (alookup [] "X") some :=
  (C2_within_batch_overwrite 0 [] [] []
    [⟨"X", some (.fin 1), []⟩, ⟨"X", some (.fin 2), []⟩] "X").2.1

theorem mem_aset {α : Type} :
    ∀ (m : List (String × α)) (k : String) (v : α) (p : String × α),
      p ∈ aset m k v → p ∈ m ∨ p = (k, v) := by
  intro m
  induction m with
  | nil =>
    intro k v p h
    simp [aset] at h
    simp [h]
  | cons kv rest ih =>
    intro k v p h
    obtain ⟨k1, v1⟩ := kv
    by_cases h1 : k1 = k
    · simp only [aset, h1, if_true] at h
      rcases List.mem_cons.mp h with he | hm
      · right
        exact he
      · left
        exact List.mem_cons_of_mem _ hm
    · simp only [aset, h1, if_false] at h
      rcases List.mem_cons.mp h with he | hm
      · left
        simp [he]
      · rcases ih k v p hm with h2 | h2
        · left
          exact List.mem_cons_of_mem _ h2
        · right
          exact h2

theorem procRecord_recs_valid (now : Int) (st : StateMapping) (r : CondorRec)
    (h1 : ¬ r.id = "") :
    (procRecord now (initAcc st) r).recs =
      if supersedes (alookup st (recWithTm now r).id) (recWithTm now r) = true
      then [recWithTm now r] else [] := by
  simp only [procRecord, initAcc, h1, if_false]
  by_cases h2 : supersedes (alookup st (recWithTm now r).id) (recWithTm now r) = true
  · simp [h2]
  · simp [h2]

/-- Every record stored in the state after a merge pass is either inherited
from the prior state or one of the records the pass accepted. -/
theorem updatedRecs_state_mem (now : Int) :
    ∀ (batch : List CondorRec) (st : StateMapping) (p : String × CondorRec),
      p ∈ (updatedRecs now st batch).state →
      p ∈ st ∨ p.2 ∈ (updatedRecs now st batch).recs := by
  intro batch
  induction batch with
  | nil =>
    intro st p h
    left
    simpa [updatedRecs, initAcc] using h
  | cons r rest ih =>
    intro st p h
    rw [updatedRecs_eq_foldl] at h ⊢
    simp only [List.foldl_cons] at h ⊢
    rw [foldl_procRecord_decomp now rest (procRecord now (initAcc st) r)] at h ⊢
    simp only [List.mem_append] at h ⊢
    have hih := ih ((procRecord now (initAcc st) r).state) p (by
      rw [updatedRecs_eq_foldl]
      exact h)
    rw [updatedRecs_eq_foldl] at hih
    rcases hih with h2 | h2
    · by_cases hid : r.id = ""
      · rw [procRecord_state_invalid now _ r hid] at h2
        simp only [initAcc] at h2
        exact Or.inl h2
      · rw [procRecord_state_valid now _ r hid] at h2
        simp only [initAcc] at h2
        by_cases hs : supersedes (alookup st (recWithTm now r).id) (recWithTm now r) = true
        · rw [if_pos hs] at h2
          rcases mem_aset _ _ _ _ h2 with h3 | h3
          · exact Or.inl h3
          · right
            left
            rw [procRecord_recs_valid now st r hid, if_pos hs]
            simp [h3]
        · rw [if_neg hs] at h2
          exact Or.inl h2
    · right
      right
      simpa [initAcc] using h2

theorem recWithTm_tm_ne_zero (now : Int) (r : CondorRec) (hnow : now ≠ 0) :
    ∃ t : Int, (recWithTm now r).tm = some (.fin t) ∧ t ≠ 0 := by
  by_cases h : truthyTm r.tm = true
  · cases htm : r.tm with
    | none =>
      rw [htm] at h
      simp [truthyTm] at h
    | some n =>
      cases n with
      | fin v =>
        rw [htm] at h
        simp only [truthyTm, bne_iff_ne, ne_eq] at h
        exact ⟨v, by simp [recWithTm, truthyTm, htm, h], h⟩
      | nan =>
        rw [htm] at h
        simp [truthyTm] at h
  · exact ⟨now, by simp [recWithTm, h], hnow⟩

/-- C10: a candidate whose `tm` is present but falsy (`0` or `NaN`) is
processed exactly like one with no `tm` at all — the merged candidate
carries a freshly assigned wall-clock timestamp — and, provided the clock
is nonzero and the prior state held no zero timestamps, no record in the
written set or resulting state carries timestamp `0` (or `NaN`, or none). -/
theorem C10_falsy_tm_defaulted (now : Int) (st : StateMapping) (batch : List CondorRec)
    (hnow : now ≠ 0)
    (hst : ∀ p ∈ st, ∃ t : Int, p.2.tm = some (.fin t) ∧ t ≠ 0) :
    (∀ r : CondorRec, r.tm = some (.fin 0) ∨ r.tm = some .nan →
      recWithTm now r = { r with tm := some (.fin now) } ∧
      recWithTm now r = recWithTm now { r with tm := none }) ∧
    (∀ v ∈ (updatedRecs now st batch).recs, ∃ t : Int, v.tm = some (.fin t) ∧ t ≠ 0) ∧
    (∀ p ∈ (updatedRecs now st batch).state, ∃ t : Int, p.2.tm = some (.fin t) ∧ t ≠ 0) := by
  have hrecs : ∀ v ∈ (updatedRecs now st batch).recs,
      ∃ t : Int, v.tm = some (.fin t) ∧ t ≠ 0 := by
    intro v hv
    obtain ⟨r, _, he⟩ := updatedRecs_recs_sources now batch st v hv
    subst he
    exact recWithTm_tm_ne_zero now r hnow
  refine ⟨?_, hrecs, ?_⟩
  · intro r hr
    have hfalsy : truthyTm r.tm = false := by
      rcases hr with h | h <;> simp [truthyTm, h]
    constructor
    · simp only [recWithTm]
      rw [hfalsy]
      simp
    · simp only [recWithTm]
      rw [hfalsy]
      simp [truthyTm]
  · intro p hp
    rcases updatedRecs_state_mem now batch st p hp with h | h
    · exact hst p h
    · exact hrecs p.2 h

theorem C10_falsy_tm_defaulted_witness :
    ((7 : Int) ≠ 0 ∧
     (∀ p ∈ ([] : StateMapping), ∃ t : Int, p.2.tm = some (.fin t) ∧ t ≠ 0)) ∧
    (∀ v ∈ (updatedRecs 7 [] [⟨"a", some (.fin 0), []⟩, ⟨"b", some .nan, []⟩]).recs,
      ∃ t : Int, v.tm = some (.fin t) ∧ t ≠ 0) :=
  ⟨⟨by norm_num, by intro p hp; cases hp⟩,
   (C10_falsy_tm_defaulted 7 [] [⟨"a", some (.fin 0), []⟩, ⟨"b", some .nan, []⟩]
     (by norm_num) (by intro p hp; cases hp)).2.1⟩

/-- C1: against a stored record of the same id, the incoming candidate
(after timestamp defaulting) replaces it exactly when its timestamp is
strictly greater, or equal with a structural difference outside `tm` — in
both the merge engine (`updatedRecs` step) and the log replay (`load_` line
step) — a strictly smaller timestamp never replaces; consequently, a log
line holding the unique strictly-greatest-timestamp version of an id is the
version present after reload, wherever it sits in the file. -/
theorem C1_latest_wins (now : Int) :
    (∀ (acc : UpdatedRecs) (record c : CondorRec) (tc tr : Int),
      record.id ≠ "" →
      alookup acc.state (recWithTm now record).id = some c →
      c.tm = some (.fin tc) → (recWithTm now record).tm = some (.fin tr) →
      recWf c = true → recWf (recWithTm now record) = true →
      (((tc < tr ∨ (tc = tr ∧ specRecDiffers c (recWithTm now record))) →
        alookup (procRecord now acc record).state (recWithTm now record).id =
          some (recWithTm now record)) ∧
       (¬ (tc < tr ∨ (tc = tr ∧ specRecDiffers c (recWithTm now record))) →
        alookup (procRecord now acc record).state (recWithTm now record).id = some c) ∧
       (tr < tc →
        alookup (procRecord now acc record).state (recWithTm now record).id = some c))) ∧
    (∀ (acc : StateMapping × List CondorErrM × Nat) (l : LogLine) (r2 c : CondorRec)
        (tc tr : Int),
      parseLine l = some r2 →
      alookup acc.1 r2.id = some c →
      c.tm = some (.fin tc) → r2.tm = some (.fin tr) →
      recWf c = true → recWf r2 = true →
      (((tc < tr ∨ (tc = tr ∧ specRecDiffers c r2)) →
        alookup (procLine now acc l).1 r2.id = some r2) ∧
       (¬ (tc < tr ∨ (tc = tr ∧ specRecDiffers c r2)) →
        alookup (procLine now acc l).1 r2.id = some c) ∧
       (tr < tc → alookup (procLine now acc l).1 r2.id = some c))) ∧
    (∀ (w : World) (dbfile : String) (fd : FileData) (maxB : Nat) (r : CondorRec) (t : Int),
      alookup w.cache dbfile = none →
      alookup w.files dbfile = some fd →
      ¬ fd.size > maxB →
      r.tm = some (.fin t) →
      LogLine.recLine r ∈ fd.lines →
      (∀ l ∈ fd.lines, ∀ r2 t2, parseLine l = some r2 → r2.id = r.id →
        r2.tm = some (.fin t2) → r2 = r ∨ t2 < t) →
      ∃ m errs, load_ w dbfile maxB = (some m, { w with cache := aset w.cache dbfile m }, errs) ∧
        alookup m r.id = some r) := by
  refine ⟨?_, ?_, ?_⟩
  · intro acc record c tc tr hid hc htc htr hwc hwr
    have hiff := supersedes_iff c (recWithTm now record) tc tr htc htr hwc hwr
    rw [procRecord_state_valid now acc record hid]
    refine ⟨?_, ?_, ?_⟩
    · intro hcond
      rw [hc, if_pos (hiff.mpr hcond), alookup_aset_self]
    · intro hcond
      rw [hc]
      have hs : ¬ supersedes (some c) (recWithTm now record) = true := fun h2 =>
        hcond (hiff.mp h2)
      rw [if_neg hs]
      exact hc
    · intro hlt
      rw [hc]
      have hs : ¬ supersedes (some c) (recWithTm now record) = true := by
        intro h2
        rcases hiff.mp h2 with h3 | ⟨h3, _⟩ <;> omega
      rw [if_neg hs]
      exact hc
  · intro acc l r2 c tc tr hp hc htc htr hwc hwr
    have hiff := supersedes_iff c r2 tc tr htc htr hwc hwr
    rw [procLine_fst]
    simp only [hp]
    rw [hc]
    refine ⟨?_, ?_, ?_⟩
    · intro hcond
      rw [if_pos (hiff.mpr hcond), alookup_aset_self]
    · intro hcond
      have hs : ¬ supersedes (some c) r2 = true := fun h2 => hcond (hiff.mp h2)
      rw [if_neg hs]
      exact hc
    · intro hlt
      have hs : ¬ supersedes (some c) r2 = true := by
        intro h2
        rcases hiff.mp h2 with h3 | ⟨h3, _⟩ <;> omega
      rw [if_neg hs]
      exact hc
  · intro w dbfile fd maxB r t hcache hfile hsize htm hmem hmax
    refine ⟨(fd.lines.foldl (procLine w.now) ([], [], 0)).1,
      (fd.lines.foldl (procLine w.now) ([], [], 0)).2.1, ?_, ?_⟩
    · simp [load_, hcache, hfile, hsize]
    · exact loadFold_unique_max w.now fd.lines r t htm hmem hmax

theorem C1_latest_wins_witness :
    ∃ m errs,
      load_ ⟨[], [("db", ⟨[.recLine ⟨"a", some (.fin 2), []⟩,
          .recLine ⟨"a", some (.fin 1), []⟩], 10, true⟩)], 0⟩ "db" defaultMaxFileSizeBytes =
        (some m,
         { (⟨[], [("db", ⟨[.recLine ⟨"a", some (.fin 2), []⟩,
             .recLine ⟨"a", some (.fin 1), []⟩], 10, true⟩)], 0⟩ : World) with
           cache := aset [] "db" m },
         errs) ∧
      alookup m "a" = some ⟨"a", some (.fin 2), []⟩ :=
  (C1_latest_wins 0).2.2
    ⟨[], [("db", ⟨[.recLine ⟨"a", some (.fin 2), []⟩,
        .recLine ⟨"a", some (.fin 1), []⟩], 10, true⟩)], 0⟩
    "db" ⟨[.recLine ⟨"a", some (.fin 2), []⟩, .recLine ⟨"a", some (.fin 1), []⟩], 10, true⟩
    defaultMaxFileSizeBytes ⟨"a", some (.fin 2), []⟩ 2
    rfl rfl (by norm_num [defaultMaxFileSizeBytes]) rfl (List.mem_cons_self _ _)
    (by
      intro l hl r2 t2 hp hid ht2
      rcases List.mem_cons.mp hl with he | hl2
      · subst he
        simp only [parseLine, Option.some.injEq] at hp
        left
        rw [← hp]
      · rcases List.mem_cons.mp hl2 with he | hl3
        · subst he
          simp only [parseLine, Option.some.injEq] at hp
          right
          rw [← hp] at ht2
          simp only [Option.some.injEq, JsNum.fin.injEq] at ht2
          omega
        · cases hl3)

theorem aset_self_of_lookup {α : Type} :
    ∀ (m : List (String × α)) (k : String) (v : α),
      alookup m k = some v → aset m k v = m := by
  intro m
  induction m with
  | nil =>
    intro k v h
    simp [alookup] at h
  | cons kv rest ih =>
    intro k v h
    obtain ⟨k1, v1⟩ := kv
    by_cases h1 : k1 = k
    · simp only [alookup, h1, if_true, Option.some.injEq] at h
      simp [aset, h1, h]
    · simp only [alookup, h1, if_false] at h
      simp [aset, h1, ih k v h]

/-- C5 (amended): re-saving a record set whose records have pairwise-distinct
ids, truthy timestamps and well-formed contents, right after a successful
save of that set, appends nothing — the world (file and cache alike) is
unchanged apart from the clock, the call reports the "nothing new to save"
advisory, and it returns the same record set as the first call. -/
theorem C5_idempotent_amended (w : World) (R : List CondorRec) (dbfile : String)
    (maxB : Nat) (writeOk2 : Bool) (now2 : Int) (out1 : List CondorRec)
    (w1 : World) (errs1 : List CondorErrM)
    (hnd : (R.map (fun r => r.id)).Nodup)
    (htr : ∀ r ∈ R, truthyTm r.tm = true)
    (hwf : ∀ r ∈ R, recWf r = true)
    (h1 : saveBody w R dbfile true maxB = (some out1, w1, errs1)) :
    ∃ errs2, saveBody { w1 with now := now2 } R dbfile writeOk2 maxB =
      (some out1, { w1 with now := now2 }, errs2) ∧
      ({ message := "nothing new to save in: " ++ dbfile, code := none } : CondorErrM) ∈
        errs2 := by
  rcases hload : load_ w dbfile maxB with ⟨copt, wl, el⟩
  cases copt with
  | none =>
    rw [saveBody, hload] at h1
    simp at h1
  | some current =>
    rw [saveBody, hload] at h1
    have hkey : alookup w1.cache dbfile = some (updatedRecs wl.now current R).state ∧
        out1 = unwrap (updatedRecs wl.now current R).state := by
      by_cases hlen : (updatedRecs wl.now current R).recs.length = 0
      · simp only [hlen, if_true] at h1
        have ho := congrArg Prod.fst h1
        have hw := congrArg (fun p => p.2.1) h1
        simp only at ho hw
        constructor
        · rw [← hw]
          simp [alookup_aset_self]
        · exact (Option.some.inj ho).symm
      · simp only [hlen, if_false, if_true] at h1
        have ho := congrArg Prod.fst h1
        have hw := congrArg (fun p => p.2.1) h1
        simp only at ho hw
        constructor
        · rw [← hw]
          simp [alookup_aset_self]
        · exact (Option.some.inj ho).symm
    have hrej : ∀ r ∈ R, r.id ≠ "" →
        supersedes (alookup (updatedRecs wl.now current R).state
          (recWithTm now2 r).id) (recWithTm now2 r) = false := by
      intro r hr hvalid
      rw [recWithTm_truthy now2 r (htr r hr)]
      exact updatedRecs_rejects_member wl.now R current r hr hnd (htr r hr) (hwf r hr) hvalid
    have hall := updatedRecs_rejects_all now2 R (updatedRecs wl.now current R).state hrej
    refine ⟨[] ++ (updatedRecs now2 (updatedRecs wl.now current R).state R).errs ++
      [{ message := "nothing new to save in: " ++ dbfile }], ?_, by simp⟩
    rw [saveBody]
    have hload2 : load_ { w1 with now := now2 } dbfile maxB =
        (some (updatedRecs wl.now current R).state, { w1 with now := now2 }, []) := by
      simp [load_, hkey.1]
    rw [hload2]
    simp only [hall.2, hall.1, List.length_nil, if_true]
    rw [aset_self_of_lookup _ _ _ hkey.1]
    rw [hkey.2]

/-- C5 counterexample: the claim as stated fails on two concrete runs.
(A) Saving `[{id:"a"}]` (no `tm`) succeeds; saving the very same set again
after the wall clock has advanced appends a second line and returns a
different state (the record is re-defaulted to the new clock).
(B) Saving `[{id:"X",tm:5,v:1},{id:"X",tm:5,v:2}]` succeeds writing two
lines; saving the identical set again — even with the clock unchanged —
appends two further lines (the equal-timestamp structurally-different pair
keeps superseding itself), instead of appending nothing. -/
theorem C5_idempotence_counterexample :
    (∃ out1 W1 errs1,
      save .ok ⟨[], [("db", ⟨[], 0, true⟩)], 5⟩ [⟨"a", none, []⟩] "db" true
          defaultMaxFileSizeBytes = .ok (some out1, W1, errs1) ∧
      (∃ fd1, alookup W1.files "db" = some fd1 ∧ fd1.lines.length = 1) ∧
      ∃ out2 W2 errs2,
        save .ok { W1 with now := 6 } [⟨"a", none, []⟩] "db" true
            defaultMaxFileSizeBytes = .ok (some out2, W2, errs2) ∧
        out2 ≠ out1 ∧
        (∃ fd2, alookup W2.files "db" = some fd2 ∧ fd2.lines.length = 2)) ∧
    (∃ outB1 WB1 errsB1,
      save .ok ⟨[], [("db", ⟨[], 0, true⟩)], 5⟩
          [⟨"X", some (.fin 5), [("v", .num (.fin 1))]⟩,
           ⟨"X", some (.fin 5), [("v", .num (.fin 2))]⟩] "db" true
          defaultMaxFileSizeBytes = .ok (some outB1, WB1, errsB1) ∧
      (∃ fd1, alookup WB1.files "db" = some fd1 ∧ fd1.lines.length = 2) ∧
      ∃ outB2 WB2 errsB2,
        save .ok WB1
            [⟨"X", some (.fin 5), [("v", .num (.fin 1))]⟩,
             ⟨"X", some (.fin 5), [("v", .num (.fin 2))]⟩] "db" true
            defaultMaxFileSizeBytes = .ok (some outB2, WB2, errsB2) ∧
        (∃ fd2, alookup WB2.files "db" = some fd2 ∧ fd2.lines.length = 4)) := by
  have hgo : ∀ s : String, String.intercalate.go s "\n" [] = s := fun s => rfl
  constructor
  · have h1 : saveBody ⟨[], [("db", ⟨[], 0, true⟩)], 5⟩ [⟨"a", none, []⟩] "db" true
        defaultMaxFileSizeBytes =
        (some [⟨"a", some (.fin 5), []⟩],
         ⟨[("db", [("a", ⟨"a", some (.fin 5), []⟩)])],
          [("db", ⟨[.recLine ⟨"a", some (.fin 5), []⟩], 18, true⟩)], 5⟩,
         []) := by
      simp [saveBody, load_, alookup, aset, updatedRecs, initAcc, procRecord, recWithTm,
        truthyTm, supersedes, jsTmLt, jsTmEq, validateTimestampErrs, List.foldl,
        fileEndsWithNewlineW, unwrap, defaultMaxFileSizeBytes, String.intercalate, hgo,
        serializeRec, jvalToStr, fieldsToStr, recToObjFields, quoteJson]
      decide
    have h2 : saveBody ⟨[("db", [("a", ⟨"a", some (.fin 5), []⟩)])],
        [("db", ⟨[.recLine ⟨"a", some (.fin 5), []⟩], 18, true⟩)], 6⟩
        [⟨"a", none, []⟩] "db" true defaultMaxFileSizeBytes =
        (some [⟨"a", some (.fin 6), []⟩],
         ⟨[("db", [("a", ⟨"a", some (.fin 6), []⟩)])],
          [("db", ⟨[.recLine ⟨"a", some (.fin 5), []⟩, .recLine ⟨"a", some (.fin 6), []⟩],
            36, true⟩)], 6⟩,
         []) := by
      simp [saveBody, load_, alookup, aset, updatedRecs, initAcc, procRecord, recWithTm,
        truthyTm, supersedes, jsTmLt, jsTmEq, validateTimestampErrs, List.foldl,
        fileEndsWithNewlineW, unwrap, defaultMaxFileSizeBytes, String.intercalate, hgo,
        serializeRec, jvalToStr, fieldsToStr, recToObjFields, quoteJson]
      decide
    refine ⟨[⟨"a", some (.fin 5), []⟩],
      ⟨[("db", [("a", ⟨"a", some (.fin 5), []⟩)])],
       [("db", ⟨[.recLine ⟨"a", some (.fin 5), []⟩], 18, true⟩)], 5⟩, [],
      congrArg Except.ok h1,
      ⟨⟨[.recLine ⟨"a", some (.fin 5), []⟩], 18, true⟩, rfl, rfl⟩,
      [⟨"a", some (.fin 6), []⟩],
      ⟨[("db", [("a", ⟨"a", some (.fin 6), []⟩)])],
       [("db", ⟨[.recLine ⟨"a", some (.fin 5), []⟩,
         .recLine ⟨"a", some (.fin 6), []⟩], 36, true⟩)], 6⟩, [],
      congrArg Except.ok h2, ?_,
      ⟨⟨[.recLine ⟨"a", some (.fin 5), []⟩, .recLine ⟨"a", some (.fin 6), []⟩], 36, true⟩,
       rfl, rfl⟩⟩
    intro he
    rw [List.cons.injEq, CondorRec.mk.injEq] at he
    have h6 : (6 : Int) = 5 := by
      have h7 := he.1.2.1
      simp only [Option.some.injEq, JsNum.fin.injEq] at h7
      exact h7
    norm_num at h6
  · have hB1 : saveBody ⟨[], [("db", ⟨[], 0, true⟩)], 5⟩
        [⟨"X", some (.fin 5), [("v", .num (.fin 1))]⟩,
         ⟨"X", some (.fin 5), [("v", .num (.fin 2))]⟩] "db" true
        defaultMaxFileSizeBytes =
        (some [⟨"X", some (.fin 5), [("v", .num (.fin 2))]⟩],
         ⟨[("db", [("X", ⟨"X", some (.fin 5), [("v", .num (.fin 2))]⟩)])],
          [("db", ⟨[.recLine ⟨"X", some (.fin 5), [("v", .num (.fin 1))]⟩,
            .recLine ⟨"X", some (.fin 5), [("v", .num (.fin 2))]⟩], 48, true⟩)], 5⟩,
         []) := by
      simp [saveBody, load_, alookup, aset, updatedRecs, initAcc, procRecord, recWithTm,
        truthyTm, supersedes, jsTmLt, jsTmEq, validateTimestampErrs, List.foldl,
        fileEndsWithNewlineW, unwrap, defaultMaxFileSizeBytes, String.intercalate, hgo,
        serializeRec, jvalToStr, fieldsToStr, recToObjFields, quoteJson, notEq,
        recObjNoTm, jvalEq, objFieldsEq, lookupField, jsNumEq]
      decide
    have hB2 : saveBody ⟨[("db", [("X", ⟨"X", some (.fin 5), [("v", .num (.fin 2))]⟩)])],
        [("db", ⟨[.recLine ⟨"X", some (.fin 5), [("v", .num (.fin 1))]⟩,
          .recLine ⟨"X", some (.fin 5), [("v", .num (.fin 2))]⟩], 48, true⟩)], 5⟩
        [⟨"X", some (.fin 5), [("v", .num (.fin 1))]⟩,
         ⟨"X", some (.fin 5), [("v", .num (.fin 2))]⟩] "db" true
        defaultMaxFileSizeBytes =
        (some [⟨"X", some (.fin 5), [("v", .num (.fin 2))]⟩],
         ⟨[("db", [("X", ⟨"X", some (.fin 5), [("v", .num (.fin 2))]⟩)])],
          [("db", ⟨[.recLine ⟨"X", some (.fin 5), [("v", .num (.fin 1))]⟩,
            .recLine ⟨"X", some (.fin 5), [("v", .num (.fin 2))]⟩,
            .recLine ⟨"X", some (.fin 5), [("v", .num (.fin 1))]⟩,
            .recLine ⟨"X", some (.fin 5), [("v", .num (.fin 2))]⟩], 96, true⟩)], 5⟩,
         []) := by
      simp [saveBody, load_, alookup, aset, updatedRecs, initAcc, procRecord, recWithTm,
        truthyTm, supersedes, jsTmLt, jsTmEq, validateTimestampErrs, List.foldl,
        fileEndsWithNewlineW, unwrap, defaultMaxFileSizeBytes, String.intercalate, hgo,
        serializeRec, jvalToStr, fieldsToStr, recToObjFields, quoteJson, notEq,
        recObjNoTm, jvalEq, objFieldsEq, lookupField, jsNumEq]
      decide
    exact ⟨[⟨"X", some (.fin 5), [("v", .num (.fin 2))]⟩],
      ⟨[("db", [("X", ⟨"X", some (.fin 5), [("v", .num (.fin 2))]⟩)])],
       [("db", ⟨[.recLine ⟨"X", some (.fin 5), [("v", .num (.fin 1))]⟩,
         .recLine ⟨"X", some (.fin 5), [("v", .num (.fin 2))]⟩], 48, true⟩)], 5⟩, [],
      congrArg Except.ok hB1,
      ⟨⟨[.recLine ⟨"X", some (.fin 5), [("v", .num (.fin 1))]⟩,
        .recLine ⟨"X", some (.fin 5), [("v", .num (.fin 2))]⟩], 48, true⟩, rfl, rfl⟩,
      [⟨"X", some (.fin 5), [("v", .num (.fin 2))]⟩],
      ⟨[("db", [("X", ⟨"X", some (.fin 5), [("v", .num (.fin 2))]⟩)])],
       [("db", ⟨[.recLine ⟨"X", some (.fin 5), [("v", .num (.fin 1))]⟩,
         .recLine ⟨"X", some (.fin 5), [("v", .num (.fin 2))]⟩,
         .recLine ⟨"X", some (.fin 5), [("v", .num (.fin 1))]⟩,
         .recLine ⟨"X", some (.fin 5), [("v", .num (.fin 2))]⟩], 96, true⟩)], 5⟩, [],
      congrArg Except.ok hB2,
      ⟨⟨[.recLine ⟨"X", some (.fin 5), [("v", .num (.fin 1))]⟩,
        .recLine ⟨"X", some (.fin 5), [("v", .num (.fin 2))]⟩,
        .recLine ⟨"X", some (.fin 5), [("v", .num (.fin 1))]⟩,
        .recLine ⟨"X", some (.fin 5), [("v", .num (.fin 2))]⟩], 96, true⟩, rfl, rfl⟩⟩

theorem C5_idempotent_amended_witness :
    ((([⟨"b", some (.fin 7), []⟩] : List CondorRec).map (fun r => r.id)).Nodup ∧
     (∀ r ∈ ([⟨"b", some (.fin 7), []⟩] : List CondorRec), truthyTm r.tm = true) ∧
     (∀ r ∈ ([⟨"b", some (.fin 7), []⟩] : List CondorRec), recWf r = true)) ∧
    (∃ errs2, saveBody
        { (⟨[("db", [("b", ⟨"b", some (.fin 7), []⟩)])],
           [("db", ⟨[.recLine ⟨"b", some (.fin 7), []⟩], 18, true⟩)], 7⟩ : World) with
          now := 9 }
        [⟨"b", some (.fin 7), []⟩] "db" false defaultMaxFileSizeBytes =
      (some [⟨"b", some (.fin 7), []⟩],
       { (⟨[("db", [("b", ⟨"b", some (.fin 7), []⟩)])],
          [("db", ⟨[.recLine ⟨"b", some (.fin 7), []⟩], 18, true⟩)], 7⟩ : World) with
         now := 9 },
       errs2) ∧
      ({ message := "nothing new to save in: db", code := none } : CondorErrM) ∈ errs2) := by
  have hgo : ∀ s : String, String.intercalate.go s "\n" [] = s := fun s => rfl
  have h1 : saveBody ⟨[], [("db", ⟨[], 0, true⟩)], 7⟩ [⟨"b", some (.fin 7), []⟩] "db" true
      defaultMaxFileSizeBytes =
      (some [⟨"b", some (.fin 7), []⟩],
       ⟨[("db", [("b", ⟨"b", some (.fin 7), []⟩)])],
        [("db", ⟨[.recLine ⟨"b", some (.fin 7), []⟩], 18, true⟩)], 7⟩,
       []) := by
    simp [saveBody, load_, alookup, aset, updatedRecs, initAcc, procRecord, recWithTm,
      truthyTm, supersedes, jsTmLt, jsTmEq, validateTimestampErrs, List.foldl,
      fileEndsWithNewlineW, unwrap, defaultMaxFileSizeBytes, String.intercalate, hgo,
      serializeRec, jvalToStr, fieldsToStr, recToObjFields, quoteJson]
    decide
  refine ⟨⟨by simp, ?_, ?_⟩, ?_⟩
  · intro r hr
    rcases List.mem_cons.mp hr with he | he
    · subst he
      decide
    · cases he
  · intro r hr
    rcases List.mem_cons.mp hr with he | he
    · subst he
      simp [recWf, fieldsWf]
    · cases he
  · exact C5_idempotent_amended ⟨[], [("db", ⟨[], 0, true⟩)], 7⟩ [⟨"b", some (.fin 7), []⟩]
      "db" defaultMaxFileSizeBytes false 9 [⟨"b", some (.fin 7), []⟩] _ []
      (by simp)
      (by
        intro r hr
        rcases List.mem_cons.mp hr with he | he
        · subst he
          decide
        · cases he)
      (by
        intro r hr
        rcases List.mem_cons.mp hr with he | he
        · subst he
          simp [recWf, fieldsWf]
        · cases he)
      h1

/-- C6 (amended): the round trip holds under the preconditions the claim
left implicit: a lock acquisition that does not rethrow, no pre-existing
file, a non-empty batch of records with non-empty pairwise-distinct ids,
and serialized content within the load size ceiling.  Then `create` resolves
with the batch after default-timestamp assignment, and a cache-cleared
`load` of the same path returns exactly that set, in order. -/
theorem C6_round_trip_amended (lock : LockOutcome) (w : World) (R : List CondorRec)
    (dbfile : String) (maxB : Nat)
    (hlock : lock ≠ .failed)
    (hnofile : alookup w.files dbfile = none)
    (hne : R ≠ [])
    (hvalid : ∀ r ∈ R, r.id ≠ "")
    (hnd : (R.map (fun r => r.id)).Nodup)
    (hsize : ¬ (String.intercalate "\n" (updatedRecs w.now [] R).strs ++ "\n").length > maxB) :
    ∃ W1 errs1,
      create lock w R dbfile true = .ok (some (R.map (recWithTm w.now)), W1, errs1) ∧
      (load (clearCacheW W1) dbfile maxB).1 = some (R.map (recWithTm w.now)) := by
  obtain ⟨hrecs, hstate⟩ := updatedRecs_fresh w.now R [] hvalid (fun _ _ => rfl) hnd
  have hlen : ¬ (updatedRecs w.now [] R).recs.length = 0 := by
    rw [hrecs]
    simpa using hne
  have hbody : createBody w R dbfile true =
      (some (R.map (recWithTm w.now)),
       { w with
         cache := aset w.cache dbfile (updatedRecs w.now [] R).state,
         files := aset w.files dbfile
           { lines := (R.map (recWithTm w.now)).map .recLine,
             size := (String.intercalate "\n" (updatedRecs w.now [] R).strs ++ "\n").length,
             endsNL := true } },
       (updatedRecs w.now [] R).errs) := by
    simp only [createBody, hnofile]
    rw [if_neg hlen]
    simp [hrecs]
  refine ⟨{ w with
      cache := aset w.cache dbfile (updatedRecs w.now [] R).state,
      files := aset w.files dbfile
        { lines := (R.map (recWithTm w.now)).map .recLine,
          size := (String.intercalate "\n" (updatedRecs w.now [] R).strs ++ "\n").length,
          endsNL := true } },
    (updatedRecs w.now [] R).errs, ?_, ?_⟩
  · cases lock with
    | failed => exact absurd rfl hlock
    | ok =>
      simpa [create] using congrArg
        (Except.ok : _ → Except (List CondorErrM)
          (Option (List CondorRec) × World × List CondorErrM)) hbody
    | enoent =>
      simpa [create] using congrArg
        (Except.ok : _ → Except (List CondorErrM)
          (Option (List CondorRec) × World × List CondorErrM)) hbody
  · have h1 : ∀ r ∈ R.map (recWithTm w.now), ∃ t : Int, r.tm = some (.fin t) := by
      intro r hr
      obtain ⟨r0, _, he⟩ := List.mem_map.mp hr
      exact he ▸ recWithTm_tm w.now r0
    have h3 : ((R.map (recWithTm w.now)).map (fun r => r.id)).Nodup := by
      rw [List.map_map]
      have hc : ((fun r => r.id) ∘ recWithTm w.now) = (fun r : CondorRec => r.id) :=
        funext (fun r => recWithTm_id w.now r)
      rw [hc]
      exact hnd
    have hfold := loadFold_fresh w.now (R.map (recWithTm w.now)) ([], [], 0)
      h1 (fun _ _ => rfl) h3
    simp only [load, load_, clearCacheW, alookup, alookup_aset_self]
    rw [if_neg hsize]
    simp only [hfold]
    simp [unwrap, List.map_map, Function.comp]

/-- C6 counterexample: the claim as stated fails when the batch repeats an
id.  Creating `[{id:"X",tm:1},{id:"X",tm:2}]` at a fresh path succeeds and
reports both records as written, but a cache-cleared `load` returns only
`[{id:"X",tm:2}]`, which differs from the batch after default-timestamp
assignment. -/
theorem C6_round_trip_counterexample :
    ∃ out1 W1 errs1,
      create .ok ⟨[], [], 0⟩
          [⟨"X", some (.fin 1), []⟩, ⟨"X", some (.fin 2), []⟩] "db" true =
        .ok (some out1, W1, errs1) ∧
      (load (clearCacheW W1) "db" defaultMaxFileSizeBytes).1 =
        some [⟨"X", some (.fin 2), []⟩] ∧
      (some [⟨"X", some (.fin 2), []⟩] : Option (List CondorRec)) ≠
        some (([⟨"X", some (.fin 1), []⟩, ⟨"X", some (.fin 2), []⟩] :
          List CondorRec).map (recWithTm 0)) := by
  have hgo : ∀ s : String, String.intercalate.go s "\n" [] = s := fun s => rfl
  have h1 : createBody ⟨[], [], 0⟩
      [⟨"X", some (.fin 1), []⟩, ⟨"X", some (.fin 2), []⟩] "db" true =
      (some [⟨"X", some (.fin 1), []⟩, ⟨"X", some (.fin 2), []⟩],
       ⟨[("db", [("X", ⟨"X", some (.fin 2), []⟩)])],
        [("db", ⟨[.recLine ⟨"X", some (.fin 1), []⟩,
          .recLine ⟨"X", some (.fin 2), []⟩], 36, true⟩)], 0⟩,
       []) := by
    simp [createBody, alookup, aset, updatedRecs, initAcc, procRecord, recWithTm,
      truthyTm, supersedes, jsTmLt, jsTmEq, validateTimestampErrs, List.foldl,
      String.intercalate, hgo, serializeRec, jvalToStr, fieldsToStr, recToObjFields,
      quoteJson]
    decide
  refine ⟨[⟨"X", some (.fin 1), []⟩, ⟨"X", some (.fin 2), []⟩],
    ⟨[("db", [("X", ⟨"X", some (.fin 2), []⟩)])],
     [("db", ⟨[.recLine ⟨"X", some (.fin 1), []⟩,
       .recLine ⟨"X", some (.fin 2), []⟩], 36, true⟩)], 0⟩,
    [], ?_, ?_, ?_⟩
  · simpa [create] using congrArg
      (Except.ok : _ → Except (List CondorErrM)
        (Option (List CondorRec) × World × List CondorErrM)) h1
  · simp [load, load_, clearCacheW, alookup, unwrap, List.foldl, procLine, parseLine,
      validateTimestampErrs, supersedes, jsTmLt, jsTmEq, aset, defaultMaxFileSizeBytes]
  · intro he
    have h2 := Option.some.inj he
    rw [List.map_cons, List.cons.injEq] at h2
    have h3 := h2.2
    simp [recWithTm, truthyTm] at h3
theorem C6_round_trip_amended_witness :
    ∃ W1 errs1,
      create .ok ⟨[], [], 3⟩ [⟨"c", none, []⟩] "db" true =
        .ok (some (([⟨"c", none, []⟩] : List CondorRec).map (recWithTm 3)), W1, errs1) ∧
      (load (clearCacheW W1) "db"
          (String.intercalate "\n"
            (updatedRecs 3 [] [⟨"c", none, []⟩]).strs ++ "\n").length).1 =
        some (([⟨"c", none, []⟩] : List CondorRec).map (recWithTm 3)) :=
  C6_round_trip_amended .ok ⟨[], [], 3⟩ [⟨"c", none, []⟩] "db" _
    (by decide) rfl (by simp)
    (by
      intro r hr
      rcases List.mem_cons.mp hr with he | he
      · subst he
        decide
      · cases he)
    (by simp)
    (by exact gt_irrefl _)

/-- C8 (amended): the single-channel policy holds for everything downstream
of lock acquisition.  When the lock acquisition does not fail (or fails
with `ENOENT`, which is swallowed), `create` and `save` always resolve —
errors surface only through the reported list and the `null` sentinel —
and per-record / per-line failures are reported without stopping the
processing of the remaining records or lines. -/
theorem C8_error_channel_amended (w : World) (R : List CondorRec) (p : String)
    (wok : Bool) (maxB : Nat) (lock : LockOutcome) (hlock : lock ≠ .failed)
    (st : StateMapping) (xs ys : List CondorRec) (bad : CondorRec) (hbad : bad.id = "")
    (lines1 lines2 : List LogLine) (raw : String)
    (acc : StateMapping × List CondorErrM × Nat) :
    (∃ res, create lock w R p wok = .ok res) ∧
    (∃ res, save lock w R p wok maxB = .ok res) ∧
    ((updatedRecs w.now st (xs ++ bad :: ys)).recs =
       (updatedRecs w.now st (xs ++ ys)).recs ∧
     (⟨"record missing id", none⟩ : CondorErrM) ∈
       (updatedRecs w.now st (xs ++ bad :: ys)).errs) ∧
    (((lines1 ++ .badLine raw :: lines2).foldl (procLine w.now) acc).1 =
       ((lines1 ++ lines2).foldl (procLine w.now) acc).1 ∧
     (⟨"failed to get record from line: " ++ toString (acc.2.2 + lines1.length + 1),
        none⟩ : CondorErrM) ∈
       ((lines1 ++ .badLine raw :: lines2).foldl (procLine w.now) acc).2.1) := by
  have hskip := updatedRecs_skip_invalid w.now st xs ys bad hbad
  have hline := loadFold_skip_bad w.now lines1 lines2 raw acc
  refine ⟨?_, ?_, ⟨hskip.1, hskip.2.2⟩, hline⟩
  · cases lock with
    | failed => exact absurd rfl hlock
    | ok => exact ⟨_, rfl⟩
    | enoent => exact ⟨_, rfl⟩
  · cases lock with
    | failed => exact absurd rfl hlock
    | ok => exact ⟨_, rfl⟩
    | enoent => exact ⟨_, rfl⟩

/-- C8 counterexample: the claim as stated fails at the lock boundary.  When
`proper-lockfile` acquisition throws anything other than `ENOENT`,
`withLock` rethrows it: `create` and `save` reject across the engine
boundary and the caller-supplied handler is never invoked (the reported
list is empty). -/
theorem C8_error_channel_counterexample :
    save .failed ⟨[], [], 0⟩ [⟨"a", some (.fin 1), []⟩] "db" true
        defaultMaxFileSizeBytes = .error [] ∧
    create .failed ⟨[], [], 0⟩ [⟨"a", some (.fin 1), []⟩] "db" true = .error [] :=
  ⟨rfl, rfl⟩

theorem C8_error_channel_amended_witness :
    (∃ res, create .ok ⟨[], [], 0⟩ [] "db" true = .ok res) ∧
    (∃ res, save .ok ⟨[], [], 0⟩ [] "db" true 0 = .ok res) ∧
    ((updatedRecs (0 : Int) [] ([] ++ (⟨"", none, []⟩ : CondorRec) :: [])).recs =
       (updatedRecs (0 : Int) [] ([] ++ [])).recs ∧
     (⟨"record missing id", none⟩ : CondorErrM) ∈
       (updatedRecs (0 : Int) [] ([] ++ (⟨"", none, []⟩ : CondorRec) :: [])).errs) ∧
    (((([] : List LogLine) ++ LogLine.badLine "junk" :: []).foldl (procLine (0 : Int)) ([], [], 0)).1 =
       ((([] : List LogLine) ++ []).foldl (procLine (0 : Int)) ([], [], 0)).1 ∧
     (⟨"failed to get record from line: " ++
        toString ((([], [], 0) : StateMapping × List CondorErrM × Nat).2.2 +
          ([] : List LogLine).length + 1), none⟩ : CondorErrM) ∈
       ((([] : List LogLine) ++ LogLine.badLine "junk" :: []).foldl (procLine (0 : Int)) ([], [], 0)).2.1) :=
  C8_error_channel_amended ⟨[], [], 0⟩ [] "db" true 0 .ok (by decide)
    [] [] [] ⟨"", none, []⟩ rfl [] [] "junk" ([], [], 0)

end TinyCondor
